import Mathlib

/-!
Verification model of the QSchematic wire-connectivity core.

The definitions below are a shallow embedding of the wire system:
`items/wire.cpp` (point-list mutation: insert/prepend/append/simplify,
junction flags, `pointIsOnWire`) and `wire_system/wiresystem.cpp`
(`wire_manager`: nets, `connectWire` / `disconnectWire` / `mergeNets` /
`wiresConnectedTo` / `generateJunctions`, the connector attachment table
and its `point_inserted` / `pointRemoved` maintenance, and the
global-net name query `nets`).

Coordinates are modelled as exact integers (the source uses `qreal`,
but every predicate the connectivity core relies on compares with
tolerance 0 and is a pure ring/order formula, and all concrete geometry
in the spec is integral, so exact integer arithmetic is the faithful,
kernel-computable reading).  Wires are
identified by natural-number ids; `shared_ptr` identity becomes id
equality.  Fallible paths (out-of-bounds container access, null `net()`
dereference) are modelled by `Option`, with `none` standing for the
undefined behaviour the C++ would exhibit.
-/

/-- A wire point: 2D coordinate plus junction flag (`WirePoint`). -/
structure WirePoint where
  x : ℤ
  y : ℤ
  isJunction : Bool
deriving DecidableEq, Repr

instance : Inhabited WirePoint := ⟨⟨0, 0, false⟩⟩

/-- Coordinate-only equality of two wire points.  Modelled from the spec:
`WirePoint::operator==` is not under `src/`; the spec states "equality is
coordinate equality (junction flag excluded)". -/
def coordEq (p q : WirePoint) : Bool :=
  decide (p.x = q.x) && decide (p.y = q.y)

/-- Copy a point with a new junction flag. -/
def setJ (p : WirePoint) (b : Bool) : WirePoint :=
  { p with isJunction := b }

/-- `Wire::setPointIsJunction` on a point list: bounds-guarded flag update
(out-of-range indices are a no-op, as in the source). -/
def setFlagPts (pts : List WirePoint) (i : Nat) (b : Bool) : List WirePoint :=
  pts.set i (setJ (pts.getD i default) b)

/-- A point `p` lies on the closed segment from `a` to `b` with tolerance 0.
Modelled from the spec: `Line::containsPoint` is not under `src/`; the spec
describes the geometry helpers as "line-segment primitives (containment test
with tolerance)"; with tolerance 0 this is exact collinearity plus the
bounding-box check. -/
def segContains (ax ay bx by_ px py : ℤ) : Bool :=
  decide ((bx - ax) * (py - ay) = (by_ - ay) * (px - ax)) &&
  decide (min ax bx ≤ px) && decide (px ≤ max ax bx) &&
  decide (min ay by_ ≤ py) && decide (py ≤ max ay by_)

/-- The list of line segments of a point list (`Wire::line_segments`):
N points give N-1 consecutive segments, each as a pair of coordinates. -/
def lineSegments (pts : List WirePoint) : List ((ℤ × ℤ) × (ℤ × ℤ)) :=
  (pts.zip pts.tail).map (fun pq => ((pq.1.x, pq.1.y), (pq.2.x, pq.2.y)))

/-- `Wire::pointIsOnWire`: the point lies on one of the wire's segments
(`Line::containsPoint` with tolerance 0). -/
def pointIsOnWire (pts : List WirePoint) (px py : ℤ) : Bool :=
  (lineSegments pts).any (fun s => segContains s.1.1 s.1.2 s.2.1 s.2.2 px py)

/-- A point `p3` lies on the infinite line through `p1` and `p2`.  Modelled
from the spec: `Utils::pointIsOnLine` is not under `src/`; the spec calls it
a collinearity ("point on line") test, so it is the cross-product test. -/
def pointIsOnLineQ (p1 p2 p3 : WirePoint) : Bool :=
  decide ((p2.x - p1.x) * (p3.y - p1.y) = (p2.y - p1.y) * (p3.x - p1.x))

/-- The loop of `Wire::removeDuplicatePoints`: scan index `i`; while
`i < count-1` and `count > 2`, if points `i` and `i+1` are coordinate-equal,
inherit the junction flag onto `i` (only when `i` is not already a junction)
and remove point `i+1`, else advance `i`.  The explicit fuel makes the
recursion structural (so the kernel can evaluate it); every iteration
strictly decreases `2 * length - i`, so fuel `2 * length + 1` provably
outlasts the C++ while loop. -/
def dedupGo : Nat → List WirePoint → Nat → List WirePoint
  | 0, l, _ => l
  | fuel+1, l, i =>
    if i + 1 < l.length ∧ 2 < l.length then
      if coordEq (l.getD i default) (l.getD (i+1) default) then
        if (l.getD i default).isJunction then
          dedupGo fuel (l.eraseIdx (i+1)) i
        else
          dedupGo fuel ((l.set i (setJ (l.getD i default)
            (l.getD (i+1) default).isJunction)).eraseIdx (i+1)) i
      else
        dedupGo fuel l (i+1)
    else l

/-- `Wire::removeDuplicatePoints`. -/
def removeDuplicatePoints (l : List WirePoint) : List WirePoint :=
  dedupGo (2 * l.length + 1) l 0

/-- The iterator loop of `Wire::removeObsoletePoints`: `it` starts at index 2;
while `it` is in range, if point `it` lies on the line through points `it-2`
and `it-1`, erase point `it-1` (the iterator then lands one past the old
`it`-point, i.e. numerically at the same index in the shortened list),
else advance.  Fuel as in `dedupGo` (`length - it` decreases each round). -/
def obsGo : Nat → List WirePoint → Nat → List WirePoint
  | 0, l, _ => l
  | fuel+1, l, it =>
    if it < l.length ∧ 2 ≤ it then
      if pointIsOnLineQ (l.getD (it-2) default) (l.getD (it-1) default) (l.getD it default) then
        obsGo fuel (l.eraseIdx (it-1)) it
      else
        obsGo fuel l (it+1)
    else l

/-- `Wire::removeObsoletePoints`: no-op on fewer than 3 points. -/
def removeObsoletePoints (l : List WirePoint) : List WirePoint :=
  if l.length < 3 then l else obsGo (l.length + 1) l 2

/-- `Wire::simplify`: duplicate collapse, then collinear-point removal. -/
def simplify (l : List WirePoint) : List WirePoint :=
  removeObsoletePoints (removeDuplicatePoints l)

/-- Insertion of an element at a position in a list (`QList::insert`;
index equal to the length appends). -/
def insIdx : List WirePoint → Nat → WirePoint → List WirePoint
  | l, 0, a => a :: l
  | [], _+1, a => [a]
  | x :: xs, n+1, a => x :: insIdx xs n a

/-- `Wire::insertPoint`'s effect on the wire's own point list.  The C++
guard rejects `index < 0 || index >= points_count()` as a silent no-op;
surviving indices then evaluate `line_segments().at(index - 1)`, which for
`index = 0` is an out-of-bounds access — modelled as `none` (undefined
behaviour).  In-range insertion stores the snapped point (snapping is the
caller-provided `Settings::snapToGrid`, passed here as `snap`); the
junction relocation on that path touches only other, connected wires, not
this wire's own list. -/
def insertPoint (snap : ℤ × ℤ → ℤ × ℤ) (pts : List WirePoint) (index : Int)
    (qx qy : ℤ) : Option (List WirePoint) :=
  if index < 0 ∨ (pts.length : Int) ≤ index then
    some pts
  else if index = 0 then
    none
  else
    some (insIdx pts index.toNat ⟨(snap (qx, qy)).1, (snap (qx, qy)).2, false⟩)

/-- `Wire::prependPoint`: prepend a fresh (non-junction) point; if the wire
then has at least 2 points, point 0 inherits point 1's junction flag and
point 1's flag is cleared. -/
def prependPoint (l : List WirePoint) (qx qy : ℤ) : List WirePoint :=
  let l1 : List WirePoint := ⟨qx, qy, false⟩ :: l
  if 2 ≤ l1.length then
    setFlagPts (setFlagPts l1 0 (l1.getD 1 default).isJunction) 1 false
  else l1

/-- `Wire::appendPoint`: append a fresh (non-junction) point; if the wire
then has more than 2 points, the new last point inherits the old last
point's junction flag and the old last point's flag is cleared. -/
def appendPoint (l : List WirePoint) (qx qy : ℤ) : List WirePoint :=
  let l1 : List WirePoint := l ++ [⟨qx, qy, false⟩]
  if 2 < l1.length then
    setFlagPts (setFlagPts l1 (l1.length - 1) (l1.getD (l1.length - 2) default).isJunction)
      (l1.length - 2) false
  else l1

/-!
The `wire_manager` model.  A manager state holds the directed connection
edges (`(a, b) ∈ conn` means wire `b` is stored in wire `a`'s
`_connectedWires` list), the list of nets (each net is its list of wire
ids, in `WireNet::wires()` order), and each wire's point list (an
association list id → points).  `wire->net()` is the back-pointer kept
consistent by `WireNet::addWire` / `removeWire` (not under `src/`; the
spec says those update the wire's back-reference to the owning net), so
it is modelled as the first net containing the wire.
-/

/-- A manager state. -/
structure MState where
  conn : List (Nat × Nat)
  nets : List (List Nat)
  pts : List (Nat × List WirePoint)
deriving DecidableEq, Repr

/-- `wire_manager::wires()`: all wires, net by net. -/
def wires (s : MState) : List Nat :=
  s.nets.join

/-- Index of the first net containing a wire (the `wire->net()`
back-pointer; `none` models a null net pointer). -/
def netIdx : List (List Nat) → Nat → Option Nat
  | [], _ => none
  | n :: rest, w => if w ∈ n then some 0 else (netIdx rest w).map (· + 1)

/-- The net list at an index (empty list when out of range). -/
def getNet (s : MState) (i : Nat) : List Nat :=
  s.nets.getD i []

/-- The point list of a wire (`wire->points()`). -/
def pointsOf (s : MState) (w : Nat) : List WirePoint :=
  (s.pts.lookup w).getD []

/-- `wire_manager::connectWire`: let the anchor record the edge
(`Wire::connectWire` returns false if already present), then merge the
other wire's net into the anchor's (`mergeNets` appends the absorbed
net's wires and the emptied net is removed, `removeWireNet`).  A null
`net()` dereference is `none`. -/
def connectW (s : MState) (a b : Nat) : Option MState :=
  if (a, b) ∈ s.conn then some s
  else
    let s1 : MState := { s with conn := s.conn ++ [(a, b)] }
    match netIdx s1.nets a, netIdx s1.nets b with
    | some i, some j =>
      if i = j then some s1
      else some { s1 with
        nets := (s1.nets.set i (getNet s1 i ++ getNet s1 j)).eraseIdx j }
    | _, _ => none

/-- One frontier test of `wiresConnectedTo`: is `o` connected, in either
storage direction, to some wire already collected? -/
def connStep (conn : List (Nat × Nat)) (c : List Nat) (o : Nat) : Bool :=
  c.any (fun w2 => decide ((w2, o) ∈ conn) || decide ((o, w2) ∈ conn))

/-- The wires of the net that are not yet collected but connected to a
collected one (the `newList` of one do-while round). -/
def newFrontier (conn : List (Nat × Nat)) (netWires : List Nat) (c : List Nat) : List Nat :=
  netWires.filter (fun o => !(c.contains o) && connStep conn c o)

/-- The do-while loop of `wiresConnectedTo`, with explicit fuel (the C++
loop terminates because every round adds at least one net wire; fuel
`netWires.length + 1` provably reaches the same fixed point). -/
def wctAux (conn : List (Nat × Nat)) (netWires : List Nat) : Nat → List Nat → List Nat
  | 0, c => c
  | fuel+1, c =>
    let nl := newFrontier conn netWires c
    if nl = [] then c else wctAux conn netWires fuel (c ++ nl)

/-- `wire_manager::wiresConnectedTo`: the wire itself plus the iterated
frontier over the wires of the wire's own net. -/
def wiresConnectedTo (s : MState) (w : Nat) : Option (List Nat) :=
  match netIdx s.nets w with
  | none => none
  | some i => some (wctAux s.conn (getNet s i) ((getNet s i).length + 1) [w])

/-- `wire_manager::disconnectWire`: remove the edge from the anchor's
list (`Wire::disconnectWire`, a `removeAll`), then if the other wire's
net does not have the same wire count as the anchor's connected set, a
fresh net is registered (appended) and the wires of the other's net not
in that set are moved into it. -/
def disconnectW (s : MState) (a b : Nat) : Option MState :=
  let s1 : MState := { s with conn := s.conn.filter (fun e => e ≠ (a, b)) }
  match netIdx s1.nets b with
  | none => none
  | some j =>
    match wiresConnectedTo s1 a with
    | none => none
    | some oldWires =>
      if (getNet s1 j).length ≠ oldWires.length then
        some { s1 with nets :=
          (s1.nets.set j ((getNet s1 j).filter (fun x => oldWires.contains x))) ++
            [(getNet s1 j).filter (fun x => !(oldWires.contains x))] }
      else some s1

/-- A `connect_wire` / `disconnect_wire` call. -/
inductive MOp where
  | conn (a b : Nat)
  | disc (a b : Nat)
deriving DecidableEq, Repr

/-- Run one call. -/
def runOp (s : MState) : MOp → Option MState
  | .conn a b => connectW s a b
  | .disc a b => disconnectW s a b

/-- Run a sequence of calls (`none` once any call hits undefined
behaviour). -/
def runOps : MState → List MOp → Option MState
  | s, [] => some s
  | s, op :: rest =>
    match runOp s op with
    | none => none
    | some s2 => runOps s2 rest

/-- The state after `n` `add_wire` calls on a fresh manager: each wire in
its own singleton net, no connections (point lists are irrelevant to the
net algebra and left empty). -/
def initState (n : Nat) : MState :=
  { conn := [], nets := (List.range n).map (fun i => [i]), pts := [] }

/-- One step of the direct wire-to-wire connection relation, in either
storage direction. -/
def connRel (conn : List (Nat × Nat)) (x y : Nat) : Prop :=
  (x, y) ∈ conn ∨ (y, x) ∈ conn

/-- Reachability via direct connections: the least fixed point described
by the spec for `wires_connected_to` (the wire itself, plus repeatedly
every wire connected in either direction to one already in the set). -/
def reachC (conn : List (Nat × Nat)) : Nat → Nat → Prop :=
  Relation.ReflTransGen (connRel conn)

/-- The net-partition invariant: no wire is in two nets, every stored
edge joins two wires of a common net, and all wires of a net are mutually
reachable. -/
structure NetInv (s : MState) : Prop where
  nodup : s.nets.join.Nodup
  edges : ∀ e ∈ s.conn, ∃ n ∈ s.nets, e.1 ∈ n ∧ e.2 ∈ n
  connected : ∀ n ∈ s.nets, ∀ x ∈ n, ∀ y ∈ n, reachC s.conn x y

/-- The property claimed for every net after any call sequence: its wire
set is exactly one connected component of the direct connection
relation. -/
def NetIsComponent (s : MState) : Prop :=
  ∀ n ∈ s.nets, ∃ w, ∀ x, x ∈ n ↔ reachC s.conn w x

/-!
Connector attachment table (`_connections`): entries `(connector, wire,
index)` with the stored index a machine `int` (it can be decremented
to -1 by `pointRemoved`, and `attachWireToConnector` accepts -1).
-/

/-- Does the table already hold an attachment for this connector
(`_connections.contains(connector)`)? -/
def hasConnector (tbl : List (Nat × Nat × Int)) (c : Nat) : Bool :=
  tbl.any (fun e => e.1 == c)

/-- `wire_manager::attachWireToConnector(wire, index, connector)`:
rejected if `index < -1` or `points().count() < index`; ignored if the
connector already has an attachment; otherwise the entry is added. -/
def attachWireToConnector (tbl : List (Nat × Nat × Int)) (w : Nat) (pointsCount : Nat)
    (index : Int) (c : Nat) : List (Nat × Nat × Int) :=
  if index < -1 ∨ (pointsCount : Int) < index then tbl
  else if hasConnector tbl c then tbl
  else tbl ++ [(c, w, index)]

/-- `wire_manager::point_inserted(wire, index)`: for every attachment to
this wire, an index of 0 is never shifted; an index `>= index`, or equal
to `points_count() - 2` (the wire's old last point — the count is read
after the insertion), is incremented. -/
def point_inserted (w : Nat) (newCount : Nat) (index : Int)
    (tbl : List (Nat × Nat × Int)) : List (Nat × Nat × Int) :=
  tbl.map (fun e =>
    if e.2.1 ≠ w then e
    else if e.2.2 = 0 then e
    else if index ≤ e.2.2 ∨ e.2.2 = (newCount : Int) - 2 then (e.1, e.2.1, e.2.2 + 1)
    else e)

/-- `wire_manager::pointRemoved(wire, index)`: every attachment to this
wire with stored index `>= index` is decremented. -/
def pointRemoved (w : Nat) (index : Int)
    (tbl : List (Nat × Nat × Int)) : List (Nat × Nat × Int) :=
  tbl.map (fun e =>
    if e.2.1 ≠ w then e
    else if index ≤ e.2.2 then (e.1, e.2.1, e.2.2 - 1)
    else e)

/-- The coordinates stored at an index of a point list (used to state
that an attachment keeps pinning the same geometric point). -/
def coordsAt (l : List WirePoint) (k : Nat) : ℤ × ℤ :=
  ((l.getD k default).x, (l.getD k default).y)

/-!
The global-net name query `wire_manager::nets(wireNet)` works on net
names only.  `QString` case-insensitive comparison is modelled as
equality after per-character lowercasing.
-/

/-- A named net, as seen by the global-net query. -/
structure WNet where
  name : List Char
deriving DecidableEq, Repr

/-- Case-insensitive string equality (`QString::compare` with
`Qt::CaseInsensitive` returning 0). -/
def ciEqual (a b : List Char) : Bool :=
  a.map Char.toLower == b.map Char.toLower

/-- `wire_manager::nets(wireNet)`: the managed nets whose name is
non-empty and case-insensitively equal to the given net's name. -/
def netsNamedAs (allNets : List WNet) (wireNet : WNet) : List WNet :=
  allNets.filter (fun m => !(m.name.isEmpty) && ciEqual m.name wireNet.name)

/-!
`wire_manager::generateJunctions`.  For each ordered pair of distinct
wires `(A, B)` it tests whether `B`'s first (then last) point lies on
`A`, connecting the wires and setting the junction flag on that endpoint.
The outer loop iterates over a snapshot of `wires()` taken at entry, the
inner loop over a fresh `wires()` snapshot per outer iteration.
Reading the first/last point of an empty wire is `none`.
-/

/-- Update the stored point list of one wire. -/
def setPts (s : MState) (w : Nat) (f : List WirePoint → List WirePoint) : MState :=
  { s with pts := s.pts.map (fun e => if e.1 = w then (e.1, f e.2) else e) }

/-- `set_point_is_junction` at the manager level. -/
def setFlagW (s : MState) (w : Nat) (i : Nat) (b : Bool) : MState :=
  setPts s w (fun l => setFlagPts l i b)

/-- The body of `generateJunctions` for one ordered pair `(A, B)`:
if `B`'s first point is on `A`, connect and flag index 0; then (re-reading
the state) if `B`'s last point is on `A`, connect and flag the last
index. -/
def gjPair (s : MState) (A B : Nat) : Option MState :=
  if A = B then some s
  else
    match (pointsOf s B).head? with
    | none => none
    | some f =>
      let step1 : Option MState :=
        if pointIsOnWire (pointsOf s A) f.x f.y then
          match connectW s A B with
          | none => none
          | some t => some (setFlagW t B 0 true)
        else some s
      match step1 with
      | none => none
      | some s1 =>
        match (pointsOf s1 B).getLast? with
        | none => none
        | some l =>
          if pointIsOnWire (pointsOf s1 A) l.x l.y then
            match connectW s1 A B with
            | none => none
            | some t => some (setFlagW t B ((pointsOf t B).length - 1) true)
          else some s1

/-- The inner loop of `generateJunctions` (fixed outer wire `A`). -/
def gjInner (A : Nat) : MState → List Nat → Option MState
  | s, [] => some s
  | s, B :: rest =>
    match gjPair s A B with
    | none => none
    | some s2 => gjInner A s2 rest

/-- The outer loop of `generateJunctions`; each outer iteration takes a
fresh snapshot of `wires()` for the inner loop. -/
def gjOuter : MState → List Nat → Option MState
  | s, [] => some s
  | s, A :: rest =>
    match gjInner A s (wires s) with
    | none => none
    | some s2 => gjOuter s2 rest

/-- `wire_manager::generateJunctions`. -/
def generateJunctions (s : MState) : Option MState :=
  gjOuter s (wires s)

/-- The junction flag of point `i` of wire `w`. -/
def flagAt (s : MState) (w : Nat) (i : Nat) : Bool :=
  ((pointsOf s w).getD i default).isJunction

/-- The point of wire `w` at index `i`. -/
def ptAt (s : MState) (w : Nat) (i : Nat) : WirePoint :=
  (pointsOf s w).getD i default

/-- The coordinates of a wire's points (geometry without flags). -/
def coordsOf (s : MState) (w : Nat) : List (ℤ × ℤ) :=
  (pointsOf s w).map (fun p => (p.x, p.y))

/-- Wire `B`'s first point lies on one of wire `A`'s segments. -/
def firstOn (s : MState) (A B : Nat) : Bool :=
  pointIsOnWire (pointsOf s A) (ptAt s B 0).x (ptAt s B 0).y

/-- Wire `B`'s last point lies on one of wire `A`'s segments. -/
def lastOn (s : MState) (A B : Nat) : Bool :=
  pointIsOnWire (pointsOf s A) (ptAt s B ((pointsOf s B).length - 1)).x
    (ptAt s B ((pointsOf s B).length - 1)).y

/-!
Concrete states used by the scenario claims, counterexamples and
witnesses.
-/

/-- A wire that revisits a coordinate: (0,0)-(2,0)-(1,1)-(2,0). -/
def cexWire : List WirePoint :=
  [⟨0, 0, false⟩, ⟨2, 0, false⟩, ⟨1, 1, false⟩, ⟨2, 0, false⟩]

/-- The state of the §8 scenario before `generateJunctions`:
W1 = [(0,0),(100,0)] (id 1), W2 = [(50,0),(50,100)] (id 2), each in its
own net, no connections, no junction flags. -/
def scnState : MState :=
  { conn := [], nets := [[1], [2]],
    pts := [(1, [⟨0, 0, false⟩, ⟨100, 0, false⟩]),
            (2, [⟨50, 0, false⟩, ⟨50, 100, false⟩])] }

/-- The state of the §8 scenario after `generateJunctions`: W1 and W2
connected and merged into one net, W2's point (50,0) flagged. -/
def scnJoined : MState :=
  { conn := [(1, 2)], nets := [[1, 2]],
    pts := [(1, [⟨0, 0, false⟩, ⟨100, 0, false⟩]),
            (2, [⟨50, 0, true⟩, ⟨50, 100, false⟩])] }

/-- The state reached from three added wires by
`connect_wire(1, 2); disconnect_wire(0, 1)`: the second call splits wire
1's and 2's net away from a net that contains neither, leaving the
emptied net registered. -/
def emptyNetState : MState :=
  { conn := [(1, 2)], nets := [[0], [], [1, 2]], pts := [] }

/-- The state reached from three added wires by `connect_wire(1, 2)`. -/
def twoWireNetState : MState :=
  { conn := [(1, 2)], nets := [[0], [1, 2]], pts := [] }

/-!
Generic list lemmas used throughout.
-/

theorem length_eraseIdx_le {α : Type} (l : List α) (i : Nat) :
    (l.eraseIdx i).length ≤ l.length := by
  rw [List.length_eraseIdx]; split <;> omega

theorem length_eraseIdx_of_lt {α : Type} (l : List α) (i : Nat) (h : i < l.length) :
    (l.eraseIdx i).length = l.length - 1 := by
  rw [List.length_eraseIdx, if_pos h]

theorem getD_insIdx (l : List WirePoint) (p k : Nat) (a : WirePoint) (hp : p ≤ k) :
    (insIdx l p a).getD (k+1) default = l.getD k default := by
  induction l generalizing p k with
  | nil =>
    cases p with
    | zero => simp [insIdx]
    | succ q => simp [insIdx]
  | cons x xs ih =>
    cases p with
    | zero => simp [insIdx]
    | succ q =>
      cases k with
      | zero => omega
      | succ m => simpa [insIdx] using ih q m (by omega)

theorem length_insIdx (l : List WirePoint) (p : Nat) (a : WirePoint) (hp : p ≤ l.length) :
    (insIdx l p a).length = l.length + 1 := by
  induction l generalizing p with
  | nil =>
    cases p with
    | zero => simp [insIdx]
    | succ q => simp at hp
  | cons x xs ih =>
    cases p with
    | zero => simp [insIdx]
    | succ q => simpa [insIdx] using ih q (by simpa using hp)

theorem getD_eraseIdx (l : List WirePoint) (p k : Nat) (hp : p ≤ k) :
    (l.eraseIdx p).getD k default = l.getD (k+1) default := by
  induction l generalizing p k with
  | nil => simp [List.eraseIdx]
  | cons x xs ih =>
    cases p with
    | zero => simp [List.eraseIdx]
    | succ q =>
      cases k with
      | zero => omega
      | succ m => simpa [List.eraseIdx] using ih q m (by omega)

/-!
Point-count behaviour of `simplify` (claim C5).
-/

theorem dedupGo_length_le (fuel : Nat) (l : List WirePoint) (i : Nat) :
    (dedupGo fuel l i).length ≤ l.length := by
  induction fuel generalizing l i with
  | zero => simp [dedupGo]
  | succ f ih =>
    rw [dedupGo]
    split
    · rename_i hc
      split
      · split
        · exact le_trans (ih _ _) (length_eraseIdx_le _ _)
        · refine le_trans (ih _ _) (le_trans (length_eraseIdx_le _ _) ?_)
          simp
      · exact ih _ _
    · exact le_rfl

theorem dedupGo_two_le (fuel : Nat) (l : List WirePoint) (i : Nat) (h2 : 2 ≤ l.length) :
    2 ≤ (dedupGo fuel l i).length := by
  induction fuel generalizing l i with
  | zero => simpa [dedupGo]
  | succ f ih =>
    rw [dedupGo]
    split
    · rename_i hc
      split
      · split
        · refine ih _ _ ?_
          rw [length_eraseIdx_of_lt _ _ hc.1]
          omega
        · refine ih _ _ ?_
          rw [length_eraseIdx_of_lt]
          · simp only [List.length_set]
            omega
          · simpa using hc.1
      · exact ih _ _ h2
    · exact h2

theorem obsGo_length_le (fuel : Nat) (l : List WirePoint) (it : Nat) :
    (obsGo fuel l it).length ≤ l.length := by
  induction fuel generalizing l it with
  | zero => simp [obsGo]
  | succ f ih =>
    rw [obsGo]
    split
    · split
      · exact le_trans (ih _ _) (length_eraseIdx_le _ _)
      · exact ih _ _
    · exact le_rfl

theorem obsGo_two_le (fuel : Nat) (l : List WirePoint) (it : Nat) (h2 : 2 ≤ l.length)
    (hit : 2 ≤ it) : 2 ≤ (obsGo fuel l it).length := by
  induction fuel generalizing l it with
  | zero => simpa [obsGo]
  | succ f ih =>
    rw [obsGo]
    split
    · rename_i hc
      split
      · refine ih _ _ ?_ hc.2
        rw [length_eraseIdx_of_lt _ _ (by omega)]
        omega
      · exact ih _ _ h2 (by omega)
    · exact h2

/-- C5 (amended): `simplify` never increases a wire's point count, and
never reduces a wire that has at least 2 points below 2 points.
(Idempotence itself fails on the code: see the counterexample.) -/
theorem simplify_length_bounds (l : List WirePoint) :
    (simplify l).length ≤ l.length ∧ (2 ≤ l.length → 2 ≤ (simplify l).length) := by
  constructor
  · unfold simplify removeObsoletePoints removeDuplicatePoints
    split
    · exact dedupGo_length_le _ _ _
    · exact le_trans (obsGo_length_le _ _ _) (dedupGo_length_le _ _ _)
  · intro h2
    unfold simplify removeObsoletePoints removeDuplicatePoints
    split
    · exact dedupGo_two_le _ _ _ h2
    · exact obsGo_two_le _ _ _ (dedupGo_two_le _ _ _ h2) le_rfl

/-- C5 witness: the length bounds evaluated on the concrete 4-point wire. -/
theorem simplify_length_bounds_check :
    (simplify cexWire).length ≤ cexWire.length ∧ 2 ≤ (simplify cexWire).length :=
  ⟨(simplify_length_bounds cexWire).1, (simplify_length_bounds cexWire).2 (by decide)⟩

/-- C5 counterexample: `simplify` is not idempotent.  On the wire
(0,0)-(2,0)-(1,1)-(2,0) the collinear-removal pass erases (1,1) (the
final (2,0) lies on the line through (2,0) and (1,1)), leaving the
duplicate pair (2,0),(2,0); a second `simplify` collapses that pair, so
the second application changes the wire again. -/
theorem simplify_not_idempotent :
    simplify cexWire = [⟨0, 0, false⟩, ⟨2, 0, false⟩, ⟨2, 0, false⟩] ∧
    simplify (simplify cexWire) ≠ simplify cexWire := by decide

/-- C6: `insert` is a silent no-op for negative indices and indices at or
past the end, but index 0 — which the spec also requires to be ignored —
slips through the C++ guard (`index < 0 || index >= points_count()`) and
reaches `line_segments().at(index - 1)` = `at(-1)`, an out-of-bounds
access (`none`), on any wire with at least one point. -/
theorem insertPoint_index_zero_crash :
    insertPoint id [⟨0, 0, false⟩, ⟨10, 0, false⟩] (-1) 5 5 =
      some [⟨0, 0, false⟩, ⟨10, 0, false⟩] ∧
    insertPoint id [⟨0, 0, false⟩, ⟨10, 0, false⟩] 2 5 5 =
      some [⟨0, 0, false⟩, ⟨10, 0, false⟩] ∧
    insertPoint id [⟨0, 0, false⟩, ⟨10, 0, false⟩] 1 5 5 =
      some [⟨0, 0, false⟩, ⟨5, 5, false⟩, ⟨10, 0, false⟩] ∧
    insertPoint id [⟨0, 0, false⟩, ⟨10, 0, false⟩] 0 5 5 = none := by decide

/-!
Endpoint junction-flag transfer of `prependPoint` / `appendPoint`
(claim C8).
-/

theorem set_append_len {α : Type} (l : List α) (v x : α) :
    (l ++ [v]).set l.length x = l ++ [x] := by
  rw [List.set_append_right] <;> simp

theorem getD_append_len {α : Type} [Inhabited α] (l : List α) (v : α) :
    (l ++ [v]).getD l.length default = v := by
  induction l with
  | nil => simp
  | cons a t ih => simp

/-- C8 (amended): `appendPoint` transfers the endpoint junction flag
exactly when the wire already had at least 2 points, but `prependPoint`
transfers it already when the wire had at least 1 point (its guard reads
the point count after the insertion and tests `>= 2` where `appendPoint`
tests `> 2`); on an empty wire both simply add a non-junction point. -/
theorem prepend_append_flag_transfer (l : List WirePoint) (qx qy : ℤ) :
    (1 ≤ l.length →
      prependPoint l qx qy =
        ⟨qx, qy, (l.headD default).isJunction⟩ :: setFlagPts l 0 false) ∧
    (2 ≤ l.length →
      appendPoint l qx qy =
        setFlagPts l (l.length - 1) false ++
          [⟨qx, qy, (l.getD (l.length - 1) default).isJunction⟩]) ∧
    (l.length = 1 → appendPoint l qx qy = l ++ [⟨qx, qy, false⟩]) ∧
    (l = [] → prependPoint l qx qy = [⟨qx, qy, false⟩] ∧
      appendPoint l qx qy = [⟨qx, qy, false⟩]) := by
  refine ⟨?_, ?_, ?_, ?_⟩
  · intro h1
    match l with
    | a :: t =>
      simp only [prependPoint]
      rw [if_pos (by simp only [List.length_cons]; omega :
        2 ≤ ((⟨qx, qy, false⟩ : WirePoint) :: a :: t).length)]
      simp [setFlagPts, setJ]
  · intro h2
    match l, h2 with
    | a :: b :: t, _ =>
      set l : List WirePoint := a :: b :: t with hl
      have hcond : 2 < (l ++ [(⟨qx, qy, false⟩ : WirePoint)]).length := by
        simp [hl]
      show (if 2 < (l ++ [(⟨qx, qy, false⟩ : WirePoint)]).length then _ else _) = _
      rw [if_pos hcond]
      have hlen : (l ++ [(⟨qx, qy, false⟩ : WirePoint)]).length = l.length + 1 := by simp
      have hidx1 : (l ++ [(⟨qx, qy, false⟩ : WirePoint)]).length - 1 = l.length := by
        rw [hlen]; omega
      have hidx2 : (l ++ [(⟨qx, qy, false⟩ : WirePoint)]).length - 2 = l.length - 1 := by
        rw [hlen]; omega
      have hlt : l.length - 1 < l.length := by simp [hl]
      have egetLast : (l ++ [(⟨qx, qy, false⟩ : WirePoint)]).getD (l.length - 1) default =
          l.getD (l.length - 1) default := List.getD_append _ _ _ _ hlt
      have einner : setFlagPts (l ++ [(⟨qx, qy, false⟩ : WirePoint)]) l.length
          (l.getD (l.length - 1) default).isJunction =
          l ++ [⟨qx, qy, (l.getD (l.length - 1) default).isJunction⟩] := by
        unfold setFlagPts
        rw [getD_append_len, set_append_len]
        rfl
      rw [hidx1, hidx2, egetLast, einner]
      unfold setFlagPts
      rw [List.getD_append _ _ _ _ hlt, List.set_append_left _ _ hlt]
  · intro h1
    match l, h1 with
    | [a], _ => simp [appendPoint]
  · rintro rfl
    exact ⟨rfl, rfl⟩

/-- C8 witness: the transfer equations evaluated on a concrete 2-point
wire with a junction flag on each end. -/
theorem prepend_append_flag_transfer_check :
    prependPoint [⟨0, 0, true⟩, ⟨7, 0, false⟩] 1 1 =
      ⟨1, 1, true⟩ :: setFlagPts [⟨0, 0, true⟩, ⟨7, 0, false⟩] 0 false ∧
    appendPoint [⟨0, 0, false⟩, ⟨7, 0, true⟩] 8 0 =
      setFlagPts [⟨0, 0, false⟩, ⟨7, 0, true⟩] 1 false ++ [⟨8, 0, true⟩] :=
  ⟨(prepend_append_flag_transfer [⟨0, 0, true⟩, ⟨7, 0, false⟩] 1 1).1 (by decide),
   (prepend_append_flag_transfer [⟨0, 0, false⟩, ⟨7, 0, true⟩] 8 0).2.1 (by decide)⟩

/-- C8 counterexample: on a wire with a single (junction-flagged) point,
`prependPoint` does transfer the flag — the new endpoint inherits it and
the old point's flag is cleared — although the claim says a wire with
fewer than 2 points sees no transfer. -/
theorem prepend_single_point_transfers :
    prependPoint [⟨0, 0, true⟩] 1 1 = [⟨1, 1, true⟩, ⟨0, 0, false⟩] ∧
    prependPoint [⟨0, 0, true⟩] 1 1 ≠ [⟨1, 1, false⟩, ⟨0, 0, true⟩] := by decide

/-!
The connector attachment table (claims C9 and C2).
-/

/-- C9: once a connector has an attachment, any further
`attachWireToConnector` call with it is a complete no-op, and attaching
never introduces a second entry for the same connector (table keys stay
distinct). -/
theorem attachWireToConnector_second_noop (tbl : List (Nat × Nat × Int)) (w pc : Nat)
    (i : Int) (c : Nat) :
    (hasConnector tbl c = true → attachWireToConnector tbl w pc i c = tbl) ∧
    ((tbl.map (fun e => e.1)).Nodup →
      ((attachWireToConnector tbl w pc i c).map (fun e => e.1)).Nodup) := by
  constructor
  · intro h
    simp [attachWireToConnector, h]
  · intro hnd
    unfold attachWireToConnector
    split
    · exact hnd
    · split
      · exact hnd
      · rename_i hguard hnew
        have hc : ∀ e ∈ tbl, e.1 ≠ c := by
          intro e he
          by_contra heq
          have : hasConnector tbl c = true := by
            unfold hasConnector
            rw [List.any_eq_true]
            exact ⟨e, he, by simp [heq]⟩
          simp [this] at hnew
        rw [List.map_append]
        rw [List.nodup_append]
        refine ⟨hnd, by simp, ?_⟩
        intro a ha
        simp only [List.mem_map] at ha
        obtain ⟨e, he, rfl⟩ := ha
        simpa using fun hx => (hc e he) hx

/-- C9 witness: re-attaching connector 3 (already attached to wire 1 at
index 0) to wire 9 changes nothing. -/
theorem attachWireToConnector_second_noop_check :
    attachWireToConnector [(3, 1, 0)] 9 5 2 3 = [(3, 1, 0)] ∧
    (([(3, 1, (0 : Int))].map (fun e => e.1)).Nodup →
      ((attachWireToConnector [(3, 1, 0)] 9 5 2 3).map (fun e => e.1)).Nodup) :=
  ⟨(attachWireToConnector_second_noop [(3, 1, 0)] 9 5 2 3).1 (by decide),
   (attachWireToConnector_second_noop [(3, 1, 0)] 9 5 2 3).2⟩

/-!
The global-net name query (claim C10).
-/

/-- C10: `nets(net)` returns exactly the managed nets with a non-empty
name case-insensitively equal to the given net's name; a net with an
empty name is never returned, and the query for an empty-named net is
empty (so empty-named nets are never grouped together). -/
theorem netsNamedAs_spec (allNets : List WNet) (n0 m : WNet) :
    (m ∈ netsNamedAs allNets n0 ↔
      m ∈ allNets ∧ m.name ≠ [] ∧ ciEqual m.name n0.name = true) ∧
    (n0.name = [] → netsNamedAs allNets n0 = []) := by
  constructor
  · unfold netsNamedAs
    rw [List.mem_filter]
    simp [List.isEmpty_iff, and_assoc]
  · intro h0
    unfold netsNamedAs
    rw [List.filter_eq_nil]
    intro m2 hm2
    simp only [Bool.and_eq_true, Bool.not_eq_true', List.isEmpty_eq_false, ne_eq,
      not_and]
    intro hne
    unfold ciEqual
    rw [h0]
    simp only [List.map_nil, beq_iff_eq, List.map_eq_nil]
    exact hne

/-- C10 witness: a mixed-case match is returned, empty names are not. -/
theorem netsNamedAs_spec_check :
    (⟨['a']⟩ ∈ netsNamedAs [⟨['a']⟩, ⟨[]⟩, ⟨['A']⟩] ⟨['A']⟩ ↔
      (⟨['a']⟩ : WNet) ∈ [⟨['a']⟩, ⟨[]⟩, (⟨['A']⟩ : WNet)] ∧ ['a'] ≠ [] ∧
        ciEqual ['a'] ['A'] = true) ∧
    netsNamedAs [⟨['a']⟩, ⟨[]⟩, ⟨['A']⟩] ⟨[]⟩ = [] :=
  ⟨(netsNamedAs_spec [⟨['a']⟩, ⟨[]⟩, ⟨['A']⟩] ⟨['A']⟩ ⟨['a']⟩).1,
   (netsNamedAs_spec [⟨['a']⟩, ⟨[]⟩, ⟨['A']⟩] ⟨[]⟩ ⟨['a']⟩).2 rfl⟩

/-- C2 (amended): for a connector attached to wire `w` at index `i > 0`,
inserting a point at `p` with `1 ≤ p ≤ i` updates the stored index to
`i+1` and the pinned coordinates are unchanged; an attachment at index 0
is never shifted; removing the point at `p ≤ i` updates the stored index
to `i-1`, and the pinned coordinates are unchanged whenever `p < i` —
when `p = i` the pinned point itself is deleted, so the stored index
still becomes `i-1` but it now holds the preceding point's coordinates. -/
theorem attachment_index_maintenance (pts : List WirePoint) (tbl : List (Nat × Nat × Int))
    (w cid : Nat) (i p : Nat) (q : WirePoint) (hi : 0 < i) (hilen : i < pts.length)
    (hmem : (cid, w, (i : Int)) ∈ tbl) :
    (1 ≤ p → p ≤ i →
      (cid, w, ((i : Int) + 1)) ∈ point_inserted w (pts.length + 1) p tbl ∧
      coordsAt (insIdx pts p q) (i + 1) = coordsAt pts i) ∧
    (∀ cid2, (cid2, w, (0 : Int)) ∈ tbl →
      (cid2, w, (0 : Int)) ∈ point_inserted w (pts.length + 1) p tbl) ∧
    (p ≤ i →
      (cid, w, ((i : Int) - 1)) ∈ pointRemoved w p tbl ∧
      (p < i → coordsAt (pts.eraseIdx p) (i - 1) = coordsAt pts i)) := by
  refine ⟨?_, ?_, ?_⟩
  · intro hp1 hpi
    constructor
    · unfold point_inserted
      refine List.mem_map.2 ⟨(cid, w, (i : Int)), hmem, ?_⟩
      have h0 : ¬((i : Int) = 0) := by omega
      have hple : ((p : Nat) : Int) ≤ ((i : Nat) : Int) := by omega
      simp [h0, hple]
    · unfold coordsAt
      rw [getD_insIdx pts p i q hpi]
  · intro cid2 hmem2
    unfold point_inserted
    refine List.mem_map.2 ⟨(cid2, w, (0 : Int)), hmem2, ?_⟩
    simp
  · intro hpi
    constructor
    · unfold pointRemoved
      refine List.mem_map.2 ⟨(cid, w, (i : Int)), hmem, ?_⟩
      have hple : ((p : Nat) : Int) ≤ ((i : Nat) : Int) := by omega
      simp [hple]
    · intro hplt
      unfold coordsAt
      rw [getD_eraseIdx pts p (i - 1) (by omega), show i - 1 + 1 = i by omega]

/-- C2 witness: the §8 scenario — a connector attached at the last point
(index 1 = N-1 of a 2-point wire); after `insert(1, (5,5))` the stored
index is 2 = N, still the last point, with the same coordinates. -/
theorem attachment_index_maintenance_check :
    (7, 5, (2 : Int)) ∈ point_inserted 5 3 1 [(7, 5, 1)] ∧
    coordsAt (insIdx [⟨0, 0, false⟩, ⟨10, 0, false⟩] 1 ⟨5, 5, false⟩) 2 =
      coordsAt [⟨0, 0, false⟩, ⟨10, 0, false⟩] 1 :=
  (attachment_index_maintenance [⟨0, 0, false⟩, ⟨10, 0, false⟩] [(7, 5, 1)] 5 7 1 1
    ⟨5, 5, false⟩ (by decide) (by decide) (by decide)).1 (by decide) (by decide)

/-- C2 counterexample: removing the attached point itself (`p = i`, here
both 1, wire [(0,0),(1,0),(2,0)]): the stored index becomes 0 as the
claim's arithmetic says, but the pinned coordinates change from (1,0) to
(0,0), contradicting "the coordinates of the point the connector is
pinned to are the same before and after the edit" for `p ≤ i`. -/
theorem pointRemoved_at_pin_changes_coords :
    pointRemoved 5 1 [(7, 5, (1 : Int))] = [(7, 5, (0 : Int))] ∧
    coordsAt ([⟨0, 0, false⟩, ⟨1, 0, false⟩, ⟨2, 0, false⟩].eraseIdx 1) 0 ≠
      coordsAt [⟨0, 0, false⟩, ⟨1, 0, false⟩, ⟨2, 0, false⟩] 1 := by decide

/-!
Net-index and net-uniqueness lemmas.
-/

theorem netIdx_some_mem (nets : List (List Nat)) (w : Nat) (i : Nat)
    (h : netIdx nets w = some i) : i < nets.length ∧ w ∈ nets.getD i [] := by
  induction nets generalizing i with
  | nil => simp [netIdx] at h
  | cons n rest ih =>
    unfold netIdx at h
    by_cases hw : w ∈ n
    · rw [if_pos hw] at h
      cases h
      simpa using hw
    · rw [if_neg hw] at h
      cases hi : netIdx rest w with
      | none => rw [hi] at h; simp at h
      | some j =>
        rw [hi] at h
        simp only [Option.map_some'] at h
        cases h
        obtain ⟨h1, h2⟩ := ih j hi
        constructor
        · simpa using h1
        · simpa using h2

theorem netIdx_of_mem (nets : List (List Nat)) (w : Nat) (h : w ∈ nets.join) :
    ∃ i, netIdx nets w = some i := by
  induction nets with
  | nil => simp at h
  | cons n rest ih =>
    unfold netIdx
    by_cases hw : w ∈ n
    · exact ⟨0, if_pos hw⟩
    · have hr : w ∈ rest.join := by
        simp only [List.join_cons, List.mem_append] at h
        exact h.resolve_left hw
      obtain ⟨j, hj⟩ := ih hr
      exact ⟨j + 1, by rw [if_neg hw, hj]; rfl⟩

theorem netIdx_none_iff (nets : List (List Nat)) (w : Nat) :
    netIdx nets w = none ↔ w ∉ nets.join := by
  constructor
  · intro h hw
    obtain ⟨i, hi⟩ := netIdx_of_mem nets w hw
    rw [h] at hi
    exact Option.noConfusion hi
  · intro hw
    cases h : netIdx nets w with
    | none => rfl
    | some i =>
      obtain ⟨h1, h2⟩ := netIdx_some_mem nets w i h
      exact absurd (List.mem_join.2 ⟨nets.getD i [], by
        rw [List.getD_eq_getElem _ _ h1]; exact List.getElem_mem h1, h2⟩) hw

theorem net_unique (nets : List (List Nat)) (hnd : nets.join.Nodup) (n m : List Nat)
    (hn : n ∈ nets) (hm : m ∈ nets) (x : Nat) (hxn : x ∈ n) (hxm : x ∈ m) : n = m := by
  induction nets with
  | nil => simp at hn
  | cons a rest ih =>
    have hnd2 : (a ++ rest.join).Nodup := by simpa using hnd
    obtain ⟨hna, hrj, hdisj⟩ := List.nodup_append.1 hnd2
    rcases List.mem_cons.1 hn with rfl | hn2
    · rcases List.mem_cons.1 hm with rfl | hm2
      · rfl
      · exact absurd (List.mem_join.2 ⟨m, hm2, hxm⟩) (fun hj => hdisj hxn hj)
    · rcases List.mem_cons.1 hm with rfl | hm2
      · exact absurd (List.mem_join.2 ⟨n, hn2, hxn⟩) (fun hj => hdisj hxm hj)
      · exact ih hrj hn2 hm2

/-!
Reachability lemmas.
-/

theorem connRel_symm (conn : List (Nat × Nat)) : Symmetric (connRel conn) :=
  fun _ _ h => h.symm

theorem reachC_symm (conn : List (Nat × Nat)) : Symmetric (reachC conn) :=
  Relation.ReflTransGen.symmetric (connRel_symm conn)

theorem reachC_mono (c1 c2 : List (Nat × Nat)) (hsub : ∀ e ∈ c1, e ∈ c2) (x y : Nat)
    (h : reachC c1 x y) : reachC c2 x y :=
  Relation.ReflTransGen.mono (fun _ _ hab => hab.imp (hsub _) (hsub _)) h

theorem reach_stays_in_net (s : MState) (hnd : s.nets.join.Nodup)
    (hedges : ∀ e ∈ s.conn, ∃ n ∈ s.nets, e.1 ∈ n ∧ e.2 ∈ n)
    (n : List Nat) (hn : n ∈ s.nets) (x y : Nat) (hx : x ∈ n)
    (hr : reachC s.conn x y) : y ∈ n := by
  induction hr with
  | refl => exact hx
  | tail _ hstep ih =>
    rename_i u v _
    rcases hstep with he | he
    · obtain ⟨m, hm, h1, h2⟩ := hedges _ he
      rwa [net_unique s.nets hnd n m hn hm u ih h1]
    · obtain ⟨m, hm, h1, h2⟩ := hedges _ he
      rwa [net_unique s.nets hnd n m hn hm u ih h2]

/-!
Correctness of the `wiresConnectedTo` do-while loop.
-/

theorem nodup_of_mem_join (l : List (List Nat)) (n : List Nat) (hn : n ∈ l)
    (hnd : l.join.Nodup) : n.Nodup := by
  induction l with
  | nil => simp at hn
  | cons a rest ih =>
    have hnd2 : (a ++ rest.join).Nodup := by simpa using hnd
    obtain ⟨hna, hrj, -⟩ := List.nodup_append.1 hnd2
    rcases List.mem_cons.1 hn with rfl | hn2
    · exact hna
    · exact ih hn2 hrj

theorem filter_length_lt (l : List Nat) (p q : Nat → Bool)
    (hpq : ∀ x ∈ l, q x = true → p x = true) (x0 : Nat) (hx0 : x0 ∈ l)
    (hp0 : p x0 = true) (hq0 : q x0 = false) :
    (l.filter q).length < (l.filter p).length := by
  have heq : l.filter q = (l.filter p).filter q := by
    rw [List.filter_filter]
    refine (List.filter_congr' ?_).symm
    intro x hx
    cases hqx : q x with
    | false => simp
    | true => simp [hpq x hx hqx]
  have hsub : (l.filter q).Sublist (l.filter p) := heq ▸ List.filter_sublist _
  rcases Nat.lt_or_ge (l.filter q).length (l.filter p).length with h | h
  · exact h
  · exfalso
    have hqe : l.filter q = l.filter p := hsub.eq_of_length_le h
    have hx0p : x0 ∈ l.filter p := List.mem_filter.2 ⟨hx0, hp0⟩
    rw [← hqe] at hx0p
    have := (List.mem_filter.1 hx0p).2
    rw [hq0] at this
    exact Bool.noConfusion this

theorem connStep_true_iff (conn : List (Nat × Nat)) (c : List Nat) (o : Nat) :
    connStep conn c o = true ↔ ∃ w2 ∈ c, connRel conn w2 o := by
  unfold connStep connRel
  rw [List.any_eq_true]
  constructor
  · rintro ⟨w2, hw2, hb⟩
    simp only [Bool.or_eq_true, decide_eq_true_eq] at hb
    exact ⟨w2, hw2, hb⟩
  · rintro ⟨w2, hw2, hb⟩
    exact ⟨w2, hw2, by simpa using hb⟩

theorem mem_newFrontier (conn : List (Nat × Nat)) (netWires c : List Nat) (o : Nat) :
    o ∈ newFrontier conn netWires c ↔
      o ∈ netWires ∧ o ∉ c ∧ ∃ w2 ∈ c, connRel conn w2 o := by
  unfold newFrontier
  rw [List.mem_filter]
  rw [Bool.and_eq_true, Bool.not_eq_true']
  constructor
  · rintro ⟨h1, h2, h3⟩
    refine ⟨h1, ?_, (connStep_true_iff conn c o).1 h3⟩
    intro hc
    have hT : c.contains o = true := List.elem_iff.2 hc
    rw [h2] at hT
    exact Bool.noConfusion hT
  · rintro ⟨h1, h2, h3⟩
    refine ⟨h1, ?_, (connStep_true_iff conn c o).2 h3⟩
    cases hc : c.contains o with
    | false => rfl
    | true => exact absurd (List.elem_iff.1 hc) h2

theorem wctAux_supset (conn : List (Nat × Nat)) (netWires : List Nat) (fuel : Nat)
    (c : List Nat) (x : Nat) (hx : x ∈ c) : x ∈ wctAux conn netWires fuel c := by
  induction fuel generalizing c with
  | zero => simpa [wctAux]
  | succ f ih =>
    simp only [wctAux]
    split
    · exact hx
    · exact ih _ (List.mem_append_left _ hx)

theorem wctAux_sound (conn : List (Nat × Nat)) (netWires : List Nat) (a : Nat) (fuel : Nat)
    (c : List Nat) (hc : ∀ x ∈ c, reachC conn a x) :
    ∀ x ∈ wctAux conn netWires fuel c, reachC conn a x := by
  induction fuel generalizing c with
  | zero => simpa [wctAux]
  | succ f ih =>
    simp only [wctAux]
    split
    · exact hc
    · refine ih _ ?_
      intro x hx
      rcases List.mem_append.1 hx with h | h
      · exact hc x h
      · obtain ⟨-, -, w2, hw2, hrel⟩ := (mem_newFrontier conn netWires c x).1 h
        exact Relation.ReflTransGen.tail (hc w2 hw2) hrel

theorem wctAux_subset_dom (conn : List (Nat × Nat)) (netWires : List Nat) (fuel : Nat)
    (c : List Nat) (x : Nat) (hx : x ∈ wctAux conn netWires fuel c) :
    x ∈ c ∨ x ∈ netWires := by
  induction fuel generalizing c with
  | zero => simp [wctAux] at hx; exact Or.inl hx
  | succ f ih =>
    simp only [wctAux] at hx
    split at hx
    · exact Or.inl hx
    · rcases ih _ hx with h | h
      · rcases List.mem_append.1 h with h2 | h2
        · exact Or.inl h2
        · exact Or.inr ((mem_newFrontier conn netWires c x).1 h2).1
      · exact Or.inr h

theorem wctAux_nodup (conn : List (Nat × Nat)) (netWires : List Nat) (fuel : Nat)
    (c : List Nat) (hc : c.Nodup) (hw : netWires.Nodup) :
    (wctAux conn netWires fuel c).Nodup := by
  induction fuel generalizing c with
  | zero => simpa [wctAux]
  | succ f ih =>
    simp only [wctAux]
    split
    · exact hc
    · refine ih _ ?_
      rw [List.nodup_append]
      refine ⟨hc, List.Nodup.filter _ hw, ?_⟩
      intro x hxc hxf
      exact ((mem_newFrontier conn netWires c x).1 hxf).2.1 hxc

theorem wctAux_fixpoint (conn : List (Nat × Nat)) (netWires : List Nat) (fuel : Nat)
    (c : List Nat)
    (hfuel : (netWires.filter (fun o => !(c.contains o))).length < fuel) :
    newFrontier conn netWires (wctAux conn netWires fuel c) = [] := by
  induction fuel generalizing c with
  | zero => omega
  | succ f ih =>
    simp only [wctAux]
    split
    · assumption
    · rename_i hne
      refine ih _ ?_
      obtain ⟨x0, hx0⟩ := List.exists_mem_of_ne_nil _ hne
      obtain ⟨hx0w, hx0c, -⟩ := (mem_newFrontier conn netWires c x0).1 hx0
      have hlt : (netWires.filter
            (fun o => !((c ++ newFrontier conn netWires c).contains o))).length <
          (netWires.filter (fun o => !(c.contains o))).length := by
        refine filter_length_lt netWires _ _ ?_ x0 hx0w ?_ ?_
        · intro x hx hq
          rw [Bool.not_eq_true'] at hq ⊢
          cases hcx : c.contains x with
          | false => rfl
          | true =>
            exfalso
            have : (c ++ newFrontier conn netWires c).contains x = true :=
              List.elem_iff.2 (List.mem_append_left _ (List.elem_iff.1 hcx))
            rw [this] at hq
            exact Bool.noConfusion hq
        · rw [Bool.not_eq_true']
          cases hcx : c.contains x0 with
          | false => rfl
          | true => exact absurd (List.elem_iff.1 hcx) hx0c
        · have : (c ++ newFrontier conn netWires c).contains x0 = true :=
            List.elem_iff.2 (List.mem_append_right _ hx0)
          rw [this]
          rfl
      omega

theorem wiresConnectedTo_spec (s : MState) (hnd : s.nets.join.Nodup)
    (hedges : ∀ e ∈ s.conn, ∃ n ∈ s.nets, e.1 ∈ n ∧ e.2 ∈ n)
    (a : Nat) (ha : a ∈ wires s) :
    ∃ i L, netIdx s.nets a = some i ∧ wiresConnectedTo s a = some L ∧
      a ∈ L ∧ L.Nodup ∧ (∀ x ∈ L, x ∈ getNet s i) ∧
      (∀ x, x ∈ L ↔ reachC s.conn a x) := by
  obtain ⟨i, hi⟩ := netIdx_of_mem s.nets a ha
  obtain ⟨hilen, hamem⟩ := netIdx_some_mem _ _ _ hi
  have hNetMem : getNet s i ∈ s.nets := by
    unfold getNet
    rw [List.getD_eq_getElem _ _ hilen]
    exact List.getElem_mem hilen
  have hNetNodup : (getNet s i).Nodup := nodup_of_mem_join _ _ hNetMem hnd
  have hWct : wiresConnectedTo s a =
      some (wctAux s.conn (getNet s i) ((getNet s i).length + 1) [a]) := by
    unfold wiresConnectedTo
    rw [hi]
  set L := wctAux s.conn (getNet s i) ((getNet s i).length + 1) [a] with hL
  have haL : a ∈ L := wctAux_supset _ _ _ _ a (by simp)
  have hdom : ∀ x ∈ L, x ∈ getNet s i := by
    intro x hx
    rcases wctAux_subset_dom _ _ _ _ x hx with h | h
    · simp only [List.mem_singleton] at h
      exact h ▸ hamem
    · exact h
  have hfix : newFrontier s.conn (getNet s i) L = [] := by
    refine wctAux_fixpoint _ _ _ _ ?_
    have := List.length_filter_le (fun o => !([a].contains o)) (getNet s i)
    omega
  refine ⟨i, L, hi, hWct, haL, ?_, hdom, ?_⟩
  · exact wctAux_nodup _ _ _ _ (by simp) hNetNodup
  · intro x
    constructor
    · exact wctAux_sound _ _ a _ [a]
        (by intro z hz; simp only [List.mem_singleton] at hz; exact hz ▸ .refl) x
    · intro hr
      induction hr with
      | refl => exact haL
      | tail _ hstep ih =>
        rename_i u v _
        have huL := ih
        have huNet : u ∈ getNet s i := hdom u huL
        have hvNet : v ∈ getNet s i := by
          rcases hstep with he | he
          · obtain ⟨m, hm, h1, h2⟩ := hedges _ he
            rw [net_unique s.nets hnd (getNet s i) m hNetMem hm u huNet h1]
            exact h2
          · obtain ⟨m, hm, h1, h2⟩ := hedges _ he
            rw [net_unique s.nets hnd (getNet s i) m hNetMem hm u huNet h2]
            exact h1
        by_cases hvL : v ∈ L
        · exact hvL
        · exfalso
          have : v ∈ newFrontier s.conn (getNet s i) L :=
            (mem_newFrontier _ _ _ _).2 ⟨hvNet, hvL, u, huL, hstep⟩
          rw [hfix] at this
          exact List.not_mem_nil v this

/-!
Permutation and membership lemmas for the net-list surgery performed by
`mergeNets` (set + eraseIdx) and the net split (set + append).
-/

theorem getD_join_perm (l : List (List Nat)) (j : Nat) (hj : j < l.length) :
    List.Perm (l.getD j [] ++ (l.eraseIdx j).join) l.join := by
  induction l generalizing j with
  | nil => simp at hj
  | cons a t ih =>
    cases j with
    | zero => simp [List.eraseIdx]
    | succ j' =>
      have hj' : j' < t.length := by simpa using hj
      simp only [List.getD_cons_succ, List.eraseIdx_cons_succ, List.join_cons]
      have p1 : List.Perm (t.getD j' [] ++ (a ++ (t.eraseIdx j').join))
          (a ++ (t.getD j' [] ++ (t.eraseIdx j').join)) := by
        rw [← List.append_assoc, ← List.append_assoc]
        exact (List.perm_append_comm).append_right _
      exact p1.trans ((ih j' hj').append_left a)

theorem join_set_perm (l : List (List Nat)) (j : Nat) (a : List Nat) (hj : j < l.length) :
    List.Perm ((l.set j a).join) (a ++ (l.eraseIdx j).join) := by
  induction l generalizing j with
  | nil => simp at hj
  | cons b t ih =>
    cases j with
    | zero => simp [List.eraseIdx]
    | succ j' =>
      have hj' : j' < t.length := by simpa using hj
      simp only [List.set_cons_succ, List.eraseIdx_cons_succ, List.join_cons]
      have p1 : List.Perm (b ++ (t.set j' a).join) (b ++ (a ++ (t.eraseIdx j').join)) :=
        (ih j' hj').append_left b
      have p2 : List.Perm (b ++ (a ++ (t.eraseIdx j').join))
          (a ++ (b ++ (t.eraseIdx j').join)) := by
        rw [← List.append_assoc, ← List.append_assoc]
        exact (List.perm_append_comm).append_right _
      exact p1.trans p2

theorem getD_set_ne (l : List (List Nat)) (i j : Nat) (x : List Nat) (hij : i ≠ j) :
    (l.set i x).getD j [] = l.getD j [] := by
  induction l generalizing i j with
  | nil => simp
  | cons a t ih =>
    cases i with
    | zero =>
      cases j with
      | zero => exact absurd rfl hij
      | succ j' => simp
    | succ i' =>
      cases j with
      | zero => simp
      | succ j' => simpa using ih i' j' (by omega)

theorem join_merge_perm (l : List (List Nat)) (i j : Nat) (hi : i < l.length)
    (hj : j < l.length) (hij : i ≠ j) :
    List.Perm (((l.set i (l.getD i [] ++ l.getD j [])).eraseIdx j).join) l.join := by
  set x : List Nat := l.getD i [] ++ l.getD j [] with hx
  have h1 : List.Perm ((l.set i x).getD j [] ++ (((l.set i x).eraseIdx j)).join)
      ((l.set i x).join) := getD_join_perm _ j (by simpa using hj)
  rw [getD_set_ne l i j x hij] at h1
  have h2 : List.Perm ((l.set i x).join) (x ++ (l.eraseIdx i).join) :=
    join_set_perm l i x hi
  have h3 : List.Perm (l.getD i [] ++ (l.eraseIdx i).join) l.join := getD_join_perm l i hi
  have k1 : List.Perm (x ++ (l.eraseIdx i).join)
      (l.getD j [] ++ (l.getD i [] ++ (l.eraseIdx i).join)) := by
    rw [hx]
    rw [← List.append_assoc]
    exact (List.perm_append_comm).append_right _
  have key : List.Perm (l.getD j [] ++ (((l.set i x).eraseIdx j)).join)
      (l.getD j [] ++ l.join) :=
    h1.trans (h2.trans (k1.trans (h3.append_left (l.getD j []))))
  exact (List.perm_append_left_iff _).1 key

theorem mem_set_of_ne_getD (l : List (List Nat)) (i : Nat) (x n : List Nat)
    (hn : n ∈ l) (hne : n ≠ l.getD i []) : n ∈ l.set i x := by
  induction l generalizing i with
  | nil => simp at hn
  | cons a t ih =>
    cases i with
    | zero =>
      rcases List.mem_cons.1 hn with rfl | h2
      · simp at hne
      · simp [h2]
    | succ i' =>
      rcases List.mem_cons.1 hn with rfl | h2
      · simp
      · have := ih i' h2 (by simpa using hne)
        simp [this]

theorem mem_eraseIdx_of_ne_getD (l : List (List Nat)) (j : Nat) (n : List Nat)
    (hn : n ∈ l) (hne : n ≠ l.getD j []) : n ∈ l.eraseIdx j := by
  induction l generalizing j with
  | nil => simp at hn
  | cons a t ih =>
    cases j with
    | zero =>
      rcases List.mem_cons.1 hn with rfl | h2
      · simp at hne
      · simpa [List.eraseIdx]
    | succ j' =>
      rcases List.mem_cons.1 hn with rfl | h2
      · simp [List.eraseIdx]
      · have := ih j' h2 (by simpa using hne)
        simp [List.eraseIdx, this]

theorem set_self_mem (l : List (List Nat)) (i : Nat) (x : List Nat) (hi : i < l.length) :
    x ∈ l.set i x := by
  induction l generalizing i with
  | nil => simp at hi
  | cons a t ih =>
    cases i with
    | zero => simp
    | succ i' =>
      have := ih i' (by simpa using hi)
      simp [this]

theorem mem_of_mem_eraseIdx (l : List (List Nat)) (j : Nat) (n : List Nat)
    (hn : n ∈ l.eraseIdx j) : n ∈ l :=
  (List.eraseIdx_sublist l j).mem hn

theorem getD_mem_nets (nets : List (List Nat)) (i : Nat) (hi : i < nets.length) :
    nets.getD i [] ∈ nets := by
  rw [List.getD_eq_getElem _ _ hi]
  exact List.getElem_mem hi

theorem connectW_spec (s : MState) (hInv : NetInv s) (a b : Nat) (ha : a ∈ wires s)
    (hb : b ∈ wires s) :
    ∃ s2, connectW s a b = some s2 ∧ NetInv s2 ∧
      (∀ x, x ∈ wires s2 ↔ x ∈ wires s) ∧
      s2.pts = s.pts ∧
      (∀ e, e ∈ s2.conn ↔ e ∈ s.conn ∨ e = (a, b)) ∧
      (∃ n ∈ s2.nets, a ∈ n ∧ b ∈ n) := by
  obtain ⟨hnd, hedges, hconnd⟩ := hInv
  by_cases hab : (a, b) ∈ s.conn
  · refine ⟨s, ?_, ⟨hnd, hedges, hconnd⟩, fun x => Iff.rfl, rfl, ?_, ?_⟩
    · unfold connectW
      rw [if_pos hab]
    · intro e
      constructor
      · exact Or.inl
      · rintro (h | rfl)
        · exact h
        · exact hab
    · exact hedges (a, b) hab
  · obtain ⟨i, hia⟩ := netIdx_of_mem s.nets a ha
    obtain ⟨j, hjb⟩ := netIdx_of_mem s.nets b hb
    obtain ⟨hilen, hamem⟩ := netIdx_some_mem _ _ _ hia
    obtain ⟨hjlen, hbmem⟩ := netIdx_some_mem _ _ _ hjb
    have hsubconn : ∀ e ∈ s.conn, e ∈ s.conn ++ [(a, b)] := fun e he =>
      List.mem_append_left _ he
    have habnew : (a, b) ∈ s.conn ++ [(a, b)] := List.mem_append_right _ (by simp)
    by_cases hij : i = j
    · subst hij
      refine ⟨{ s with conn := s.conn ++ [(a, b)] }, ?_, ⟨hnd, ?_, ?_⟩, fun x => Iff.rfl,
        rfl, ?_, ?_⟩
      · unfold connectW
        rw [if_neg hab]
        dsimp only
        rw [hia, hjb]
        dsimp only
        rw [if_pos rfl]
      · intro e he
        rcases List.mem_append.1 he with h | h
        · obtain ⟨n, hn, h1, h2⟩ := hedges e h
          exact ⟨n, hn, h1, h2⟩
        · simp only [List.mem_singleton] at h
          subst h
          exact ⟨s.nets.getD i [], getD_mem_nets _ _ hilen, hamem, hbmem⟩
      · intro n hn x hx y hy
        exact reachC_mono _ _ hsubconn x y (hconnd n hn x hx y hy)
      · intro e
        simp [List.mem_append]
      · exact ⟨s.nets.getD i [], getD_mem_nets _ _ hilen, hamem, hbmem⟩
    · -- distinct nets: merge net j into net i, erase net j
      set gi : List Nat := s.nets.getD i [] with hgi
      set gj : List Nat := s.nets.getD j [] with hgj
      set merged : List Nat := gi ++ gj with hmerged
      set N2 : List (List Nat) := (s.nets.set i merged).eraseIdx j with hN2
      have hperm : List.Perm N2.join s.nets.join := join_merge_perm s.nets i j hilen hjlen hij
      have hmergedMem : merged ∈ N2 := by
        refine mem_eraseIdx_of_ne_getD _ _ _ (set_self_mem _ _ _ hilen) ?_
        rw [getD_set_ne _ _ _ _ hij]
        intro hcontra
        have h2 : 0 < gi.length := List.length_pos_of_mem hamem
        have h3 : merged.length = gj.length := by rw [hcontra]
        rw [hmerged, List.length_append] at h3
        omega
      have hmemN2 : ∀ n ∈ N2, n = merged ∨ n ∈ s.nets := by
        intro n hn
        have h1 := mem_of_mem_eraseIdx _ _ _ hn
        rcases List.mem_or_eq_of_mem_set h1 with h | h
        · exact Or.inr h
        · exact Or.inl h
      have holdMem : ∀ n ∈ s.nets, n ≠ gi → n ≠ gj → n ∈ N2 := by
        intro n hn hni hnj
        refine mem_eraseIdx_of_ne_getD _ _ _ (mem_set_of_ne_getD _ _ _ _ hn ?_) ?_
        · exact hni
        · rw [getD_set_ne _ _ _ _ hij]
          exact hnj
      refine ⟨{ s with conn := s.conn ++ [(a, b)], nets := N2 }, ?_, ⟨?_, ?_, ?_⟩,
        ?_, rfl, ?_, ?_⟩
      · unfold connectW
        rw [if_neg hab]
        dsimp only
        rw [hia, hjb]
        dsimp only
        rw [if_neg hij]
        rfl
      · exact hperm.symm.nodup hnd
      · -- edges land in a common net
        intro e he
        rcases List.mem_append.1 he with h | h
        · obtain ⟨n, hn, h1, h2⟩ := hedges e h
          by_cases hni : n = gi
          · exact ⟨merged, hmergedMem, by
              rw [hni] at h1; exact List.mem_append_left _ h1, by
              rw [hni] at h2; exact List.mem_append_left _ h2⟩
          · by_cases hnj : n = gj
            · exact ⟨merged, hmergedMem, by
                rw [hnj] at h1; exact List.mem_append_right _ h1, by
                rw [hnj] at h2; exact List.mem_append_right _ h2⟩
            · exact ⟨n, holdMem n hn hni hnj, h1, h2⟩
        · simp only [List.mem_singleton] at h
          subst h
          exact ⟨merged, hmergedMem, List.mem_append_left _ hamem,
            List.mem_append_right _ hbmem⟩
      · -- each net of the merged state is connected
        intro n hn x hx y hy
        rcases hmemN2 n hn with rfl | hold
        · have hreach : ∀ z ∈ merged, reachC (s.conn ++ [(a, b)]) a z := by
            intro z hz
            rcases List.mem_append.1 hz with h | h
            · exact reachC_mono _ _ hsubconn a z
                (hconnd gi (getD_mem_nets _ _ hilen) a hamem z h)
            · refine Relation.ReflTransGen.trans
                (Relation.ReflTransGen.single (Or.inl habnew)) ?_
              exact reachC_mono _ _ hsubconn b z
                (hconnd gj (getD_mem_nets _ _ hjlen) b hbmem z h)
          exact Relation.ReflTransGen.trans
            (reachC_symm _ (hreach x hx)) (hreach y hy)
        · exact reachC_mono _ _ hsubconn x y (hconnd n hold x hx y hy)
      · intro x
        exact hperm.mem_iff
      · intro e
        simp [List.mem_append]
      · exact ⟨merged, hmergedMem, List.mem_append_left _ hamem,
          List.mem_append_right _ hbmem⟩

/-!
Lemmas for the net split performed by `disconnectWire`.
-/

theorem mem_set_cases (l : List (List Nat)) (j : Nat) (x n : List Nat)
    (hn : n ∈ l.set j x) : n = x ∨ ∃ p, p < l.length ∧ p ≠ j ∧ l.getD p [] = n := by
  induction l generalizing j with
  | nil => simp at hn
  | cons a t ih =>
    cases j with
    | zero =>
      rcases List.mem_cons.1 (by simpa using hn) with rfl | h2
      · exact Or.inl rfl
      · obtain ⟨⟨p, hp⟩, hEq⟩ := List.mem_iff_get.1 h2
        refine Or.inr ⟨p + 1, by simpa using hp, by omega, ?_⟩
        simp only [List.getD_cons_succ]
        rw [List.getD_eq_getElem _ _ hp]
        simpa [List.get_eq_getElem] using hEq
    | succ j' =>
      rcases List.mem_cons.1 (by simpa using hn) with rfl | h2
      · exact Or.inr ⟨0, by simp, by omega, by simp⟩
      · rcases ih j' h2 with h | ⟨p, hp1, hp2, hp3⟩
        · exact Or.inl h
        · exact Or.inr ⟨p + 1, by simpa using hp1, by omega, by simpa using hp3⟩

theorem nodup_join_pos_disjoint (l : List (List Nat)) (hnd : l.join.Nodup) (p q : Nat)
    (hp : p < l.length) (hq : q < l.length) (hpq : p ≠ q) (z : Nat)
    (hzp : z ∈ l.getD p []) (hzq : z ∈ l.getD q []) : False := by
  induction l generalizing p q with
  | nil => simp at hp
  | cons a t ih =>
    have hnd2 : (a ++ t.join).Nodup := by simpa using hnd
    obtain ⟨-, hrj, hdisj⟩ := List.nodup_append.1 hnd2
    cases p with
    | zero =>
      cases q with
      | zero => exact hpq rfl
      | succ q' =>
        have hq' : q' < t.length := by simpa using hq
        refine hdisj (by simpa using hzp) ?_
        exact List.mem_join.2 ⟨t.getD q' [], getD_mem_nets t q' hq', by simpa using hzq⟩
    | succ p' =>
      cases q with
      | zero =>
        have hp' : p' < t.length := by simpa using hp
        refine hdisj (by simpa using hzq) ?_
        exact List.mem_join.2 ⟨t.getD p' [], getD_mem_nets t p' hp', by simpa using hzp⟩
      | succ q' =>
        exact ih hrj p' q' (by simpa using hp) (by simpa using hq) (by omega)
          (by simpa using hzp) (by simpa using hzq)

theorem reach_filter_of_not_both (s : MState) (hnd : s.nets.join.Nodup)
    (hedges : ∀ e ∈ s.conn, ∃ n ∈ s.nets, e.1 ∈ n ∧ e.2 ∈ n)
    (a b : Nat) (n : List Nat) (hn : n ∈ s.nets) (hnab : ¬(a ∈ n ∧ b ∈ n))
    (x y : Nat) (hx : x ∈ n) (hr : reachC s.conn x y) :
    reachC (s.conn.filter (fun e => e ≠ (a, b))) x y := by
  induction hr with
  | refl => exact .refl
  | tail hxu2 hstep ih =>
    rename_i u v
    have hu : u ∈ n := reach_stays_in_net s hnd hedges n hn x u hx hxu2
    refine ih.tail ?_
    rcases hstep with he | he
    · refine Or.inl (List.mem_filter.2 ⟨he, ?_⟩)
      simp only [ne_eq, decide_not, Bool.not_eq_true', decide_eq_false_iff_not]
      intro heq
      rw [Prod.mk.injEq] at heq
      obtain ⟨rfl, rfl⟩ := heq
      obtain ⟨m, hm, h1, h2⟩ := hedges _ he
      have hmn : n = m := net_unique s.nets hnd n m hn hm u hu h1
      exact hnab ⟨hu, hmn ▸ h2⟩
    · refine Or.inr (List.mem_filter.2 ⟨he, ?_⟩)
      simp only [ne_eq, decide_not, Bool.not_eq_true', decide_eq_false_iff_not]
      intro heq
      rw [Prod.mk.injEq] at heq
      obtain ⟨rfl, rfl⟩ := heq
      obtain ⟨m, hm, h1, h2⟩ := hedges _ he
      have hmn : n = m := net_unique s.nets hnd n m hn hm u hu h2
      exact hnab ⟨hmn ▸ h1, hu⟩

theorem reach_avoid (E E2 : List (Nat × Nat)) (a b : Nat)
    (hE2 : E2 = E.filter (fun e => e ≠ (a, b))) (x y : Nat) (h : reachC E x y) :
    reachC E2 x y ∨ (reachC E2 x a ∧ reachC E2 b y) ∨
      (reachC E2 x b ∧ reachC E2 a y) := by
  have hmemE2 : ∀ e ∈ E, e ≠ (a, b) → e ∈ E2 := by
    intro e he hne
    rw [hE2]
    refine List.mem_filter.2 ⟨he, ?_⟩
    simpa using hne
  induction h with
  | refl => exact Or.inl .refl
  | tail hxu2 hstep ih =>
    rename_i u v
    rcases hstep with he | he
    · by_cases heq : (u, v) = (a, b)
      · rw [Prod.mk.injEq] at heq
        obtain ⟨rfl, rfl⟩ := heq
        rcases ih with h1 | ⟨h2a, h2b⟩ | ⟨h3a, h3b⟩
        · exact Or.inr (Or.inl ⟨h1, .refl⟩)
        · exact Or.inr (Or.inl ⟨h2a, .refl⟩)
        · exact Or.inl h3a
      · have hcr : connRel E2 u v := Or.inl (hmemE2 _ he heq)
        rcases ih with h1 | ⟨h2a, h2b⟩ | ⟨h3a, h3b⟩
        · exact Or.inl (h1.tail hcr)
        · exact Or.inr (Or.inl ⟨h2a, h2b.tail hcr⟩)
        · exact Or.inr (Or.inr ⟨h3a, h3b.tail hcr⟩)
    · by_cases heq : (v, u) = (a, b)
      · rw [Prod.mk.injEq] at heq
        obtain ⟨rfl, rfl⟩ := heq
        rcases ih with h1 | ⟨h2a, h2b⟩ | ⟨h3a, h3b⟩
        · exact Or.inr (Or.inr ⟨h1, .refl⟩)
        · exact Or.inl h2a
        · exact Or.inl (h3a.trans (reachC_symm E2 h3b))
      · have hcr : connRel E2 u v := Or.inr (hmemE2 _ he heq)
        rcases ih with h1 | ⟨h2a, h2b⟩ | ⟨h3a, h3b⟩
        · exact Or.inl (h1.tail hcr)
        · exact Or.inr (Or.inl ⟨h2a, h2b.tail hcr⟩)
        · exact Or.inr (Or.inr ⟨h3a, h3b.tail hcr⟩)

theorem disconnectW_spec (s : MState) (hInv : NetInv s) (a b : Nat) (ha : a ∈ wires s)
    (hb : b ∈ wires s) :
    ∃ s2, disconnectW s a b = some s2 ∧ NetInv s2 ∧
      (∀ x, x ∈ wires s2 ↔ x ∈ wires s) ∧
      s2.pts = s.pts ∧
      s2.conn = s.conn.filter (fun e => e ≠ (a, b)) := by
  obtain ⟨hnd, hedges, hconnd⟩ := hInv
  have hedges2 : ∀ e ∈ s.conn.filter (fun e => e ≠ (a, b)),
      ∃ n ∈ s.nets, e.1 ∈ n ∧ e.2 ∈ n :=
    fun e he => hedges e (List.mem_filter.1 he).1
  obtain ⟨i, L, hia, hwct, haL, hLnd, hdom, hLiff⟩ :=
    wiresConnectedTo_spec
      { conn := s.conn.filter (fun e => e ≠ (a, b)), nets := s.nets, pts := s.pts }
      hnd hedges2 a ha
  obtain ⟨j, hjb⟩ := netIdx_of_mem s.nets b hb
  obtain ⟨hjlen, hbmem⟩ := netIdx_some_mem _ _ _ hjb
  obtain ⟨hilen, hamem⟩ := netIdx_some_mem s.nets a i hia
  by_cases hsplit : (s.nets.getD j []).length ≠ L.length
  · -- the net of b is split: its wires outside the closure move to a fresh net
    refine ⟨⟨s.conn.filter (fun e => e ≠ (a, b)),
      (s.nets.set j ((s.nets.getD j []).filter (fun x => L.contains x))) ++
        [(s.nets.getD j []).filter (fun x => !(L.contains x))],
      s.pts⟩, ?_, ⟨?_, ?_, ?_⟩, ?_, rfl, rfl⟩
    · unfold disconnectW
      dsimp only
      rw [hjb]
      dsimp only
      rw [hwct]
      dsimp only [getNet]
      rw [if_pos hsplit]
    · -- Nodup of the joined nets
      have h0 : (((s.nets.set j ((s.nets.getD j []).filter (fun x => L.contains x))) ++
          [(s.nets.getD j []).filter (fun x => !(L.contains x))]).join) =
          ((s.nets.set j ((s.nets.getD j []).filter (fun x => L.contains x))).join) ++
            ((s.nets.getD j []).filter (fun x => !(L.contains x))) := by
        simp
      dsimp only
      rw [h0]
      have h1 := join_set_perm s.nets j ((s.nets.getD j []).filter (fun x => L.contains x))
        hjlen
      have h2 := h1.append_right ((s.nets.getD j []).filter (fun x => !(L.contains x)))
      have h6 : List.Perm (((s.nets.getD j []).filter (fun x => L.contains x)) ++
          ((s.nets.getD j []).filter (fun x => !(L.contains x)))) (s.nets.getD j []) :=
        List.filter_append_perm _ _
      have hperm : List.Perm (((s.nets.set j
          ((s.nets.getD j []).filter (fun x => L.contains x))).join) ++
            ((s.nets.getD j []).filter (fun x => !(L.contains x)))) s.nets.join := by
        refine h2.trans ?_
        rw [List.append_assoc]
        refine ((List.perm_append_comm).append_left _).trans ?_
        rw [← List.append_assoc]
        exact (h6.append_right _).trans (getD_join_perm s.nets j hjlen)
      exact hperm.symm.nodup hnd
    · -- every edge still joins two wires of one net
      intro e he
      dsimp only at he ⊢
      obtain ⟨m, hm, h1, h2⟩ := hedges2 e he
      by_cases hmj : m = s.nets.getD j []
      · have h1j : e.1 ∈ s.nets.getD j [] := hmj ▸ h1
        have h2j : e.2 ∈ s.nets.getD j [] := hmj ▸ h2
        have hcr : connRel (s.conn.filter (fun e => e ≠ (a, b))) e.1 e.2 :=
          Or.inl (by simpa using he)
        have hiffL : e.1 ∈ L ↔ e.2 ∈ L := by
          constructor
          · intro hu
            exact (hLiff e.2).2 (((hLiff e.1).1 hu).tail hcr)
          · intro hv
            exact (hLiff e.1).2 (((hLiff e.2).1 hv).tail (connRel_symm _ hcr))
        by_cases heL : e.1 ∈ L
        · refine ⟨(s.nets.getD j []).filter (fun x => L.contains x),
            List.mem_append_left _ (set_self_mem _ _ _ hjlen), ?_, ?_⟩
          · exact List.mem_filter.2 ⟨h1j, List.elem_iff.2 heL⟩
          · exact List.mem_filter.2 ⟨h2j, List.elem_iff.2 (hiffL.1 heL)⟩
        · have he2L : e.2 ∉ L := fun hv => heL (hiffL.2 hv)
          refine ⟨(s.nets.getD j []).filter (fun x => !(L.contains x)),
            List.mem_append_right _ (by simp), ?_, ?_⟩
          · refine List.mem_filter.2 ⟨h1j, ?_⟩
            cases hc : L.contains e.1 with
            | false => rfl
            | true => exact absurd (List.elem_iff.1 hc) heL
          · refine List.mem_filter.2 ⟨h2j, ?_⟩
            cases hc : L.contains e.2 with
            | false => rfl
            | true => exact absurd (List.elem_iff.1 hc) he2L
      · exact ⟨m, List.mem_append_left _ (mem_set_of_ne_getD _ _ _ _ hm hmj), h1, h2⟩
    · -- every net of the new partition is connected
      intro n hn x hx y hy
      dsimp only at hn ⊢
      rcases List.mem_append.1 hn with hn1 | hn1
      · rcases mem_set_cases s.nets j _ n hn1 with rfl | ⟨p, hp, hpj, hpn⟩
        · have hxL : x ∈ L := List.elem_iff.1 (List.mem_filter.1 hx).2
          have hyL : y ∈ L := List.elem_iff.1 (List.mem_filter.1 hy).2
          exact Relation.ReflTransGen.trans (reachC_symm _ ((hLiff x).1 hxL))
            ((hLiff y).1 hyL)
        · have hnmem : n ∈ s.nets := hpn ▸ getD_mem_nets s.nets p hp
          have hnab : ¬(a ∈ n ∧ b ∈ n) := by
            rintro ⟨-, hbn⟩
            exact nodup_join_pos_disjoint s.nets hnd p j hp hjlen hpj b (hpn ▸ hbn) hbmem
          exact reach_filter_of_not_both s hnd hedges a b n hnmem hnab x y hx
            (hconnd n hnmem x hx y hy)
      · simp only [List.mem_singleton] at hn1
        subst hn1
        have hxj : x ∈ s.nets.getD j [] := (List.mem_filter.1 hx).1
        have hyj : y ∈ s.nets.getD j [] := (List.mem_filter.1 hy).1
        have hxL : x ∉ L := by
          intro hmem
          have h2 := (List.mem_filter.1 hx).2
          have h3 : L.contains x = true := List.elem_iff.2 hmem
          rw [h3] at h2
          simp at h2
        have hyL : y ∉ L := by
          intro hmem
          have h2 := (List.mem_filter.1 hy).2
          have h3 : L.contains y = true := List.elem_iff.2 hmem
          rw [h3] at h2
          simp at h2
        have hr : reachC s.conn x y :=
          hconnd _ (getD_mem_nets s.nets j hjlen) x hxj y hyj
        rcases reach_avoid s.conn _ a b rfl x y hr with h1 | ⟨h2a, h2b⟩ | ⟨h3a, h3b⟩
        · exact h1
        · exact absurd ((hLiff x).2 (reachC_symm _ h2a)) hxL
        · exact absurd ((hLiff y).2 h3b) hyL
    · -- wire set preserved
      intro x
      have h0 : (((s.nets.set j ((s.nets.getD j []).filter (fun x => L.contains x))) ++
          [(s.nets.getD j []).filter (fun x => !(L.contains x))]).join) =
          ((s.nets.set j ((s.nets.getD j []).filter (fun x => L.contains x))).join) ++
            ((s.nets.getD j []).filter (fun x => !(L.contains x))) := by
        simp
      have h1 := join_set_perm s.nets j ((s.nets.getD j []).filter (fun x => L.contains x))
        hjlen
      have h2 := h1.append_right ((s.nets.getD j []).filter (fun x => !(L.contains x)))
      have h6 : List.Perm (((s.nets.getD j []).filter (fun x => L.contains x)) ++
          ((s.nets.getD j []).filter (fun x => !(L.contains x)))) (s.nets.getD j []) :=
        List.filter_append_perm _ _
      have hperm : List.Perm (((s.nets.set j
          ((s.nets.getD j []).filter (fun x => L.contains x))).join) ++
            ((s.nets.getD j []).filter (fun x => !(L.contains x)))) s.nets.join := by
        refine h2.trans ?_
        rw [List.append_assoc]
        refine ((List.perm_append_comm).append_left _).trans ?_
        rw [← List.append_assoc]
        exact (h6.append_right _).trans (getD_join_perm s.nets j hjlen)
      unfold wires
      dsimp only
      rw [h0]
      exact hperm.mem_iff
  · -- no split: the closure spans the whole net of b
    refine ⟨⟨s.conn.filter (fun e => e ≠ (a, b)), s.nets, s.pts⟩,
      ?_, ⟨hnd, hedges2, ?_⟩, fun x => Iff.rfl, rfl, rfl⟩
    · unfold disconnectW
      dsimp only
      rw [hjb]
      dsimp only
      rw [hwct]
      dsimp only [getNet]
      rw [if_neg hsplit]
    · intro n hn x hx y hy
      by_cases hnab : a ∈ n ∧ b ∈ n
      · obtain ⟨han, hbn⟩ := hnab
        have hni : n = s.nets.getD i [] :=
          net_unique s.nets hnd n _ hn (getD_mem_nets _ _ hilen) a han hamem
        have hLsub : ∀ z ∈ L, z ∈ n := by
          intro z hz
          rw [hni]
          exact hdom z hz
        have hnj : n = s.nets.getD j [] :=
          net_unique s.nets hnd n _ hn (getD_mem_nets _ _ hjlen) b hbn hbmem
        have hlen : n.length = L.length := by
          rw [hnj]
          omega
        have hnnd : n.Nodup := nodup_of_mem_join _ _ hn hnd
        have hsetEq : ∀ z ∈ n, z ∈ L := by
          have hsubF : L.toFinset ⊆ n.toFinset := by
            intro w hw
            rw [List.mem_toFinset] at hw ⊢
            exact hLsub w hw
          have hcard : n.toFinset.card ≤ L.toFinset.card := by
            rw [List.toFinset_card_of_nodup hnnd, List.toFinset_card_of_nodup hLnd]
            omega
          have hfe : L.toFinset = n.toFinset := Finset.eq_of_subset_of_card_le hsubF hcard
          intro z hz
          have : z ∈ n.toFinset := List.mem_toFinset.2 hz
          rw [← hfe] at this
          exact List.mem_toFinset.1 this
        exact Relation.ReflTransGen.trans (reachC_symm _ ((hLiff x).1 (hsetEq x hx)))
          ((hLiff y).1 (hsetEq y hy))
      · exact reach_filter_of_not_both s hnd hedges a b n hn hnab x y hx
          (hconnd n hn x hx y hy)

/-!
Preservation of the net invariant along arbitrary call sequences.
-/

theorem runOp_netInv (s s2 : MState) (hInv : NetInv s) (op : MOp)
    (h : runOp s op = some s2) :
    NetInv s2 ∧ (∀ x, x ∈ wires s2 ↔ x ∈ wires s) ∧ s2.pts = s.pts := by
  cases op with
  | conn a b =>
    simp only [runOp] at h
    by_cases hab : (a, b) ∈ s.conn
    · unfold connectW at h
      rw [if_pos hab] at h
      simp only [Option.some.injEq] at h
      subst h
      exact ⟨hInv, fun x => Iff.rfl, rfl⟩
    · have hman : a ∈ wires s ∧ b ∈ wires s := by
        unfold connectW at h
        rw [if_neg hab] at h
        dsimp only at h
        cases hia : netIdx s.nets a with
        | none =>
          cases hjb : netIdx s.nets b with
          | none => rw [hia, hjb] at h; exact Option.noConfusion h
          | some j => rw [hia, hjb] at h; exact Option.noConfusion h
        | some i =>
          cases hjb : netIdx s.nets b with
          | none => rw [hia, hjb] at h; exact Option.noConfusion h
          | some j =>
            obtain ⟨hl1, hm1⟩ := netIdx_some_mem _ _ _ hia
            obtain ⟨hl2, hm2⟩ := netIdx_some_mem _ _ _ hjb
            exact ⟨List.mem_join.2 ⟨_, getD_mem_nets _ _ hl1, hm1⟩,
              List.mem_join.2 ⟨_, getD_mem_nets _ _ hl2, hm2⟩⟩
      obtain ⟨ha, hb⟩ := hman
      obtain ⟨s2x, heq, hInv2, hw, hp, -, -⟩ := connectW_spec s hInv a b ha hb
      rw [heq] at h
      simp only [Option.some.injEq] at h
      subst h
      exact ⟨hInv2, hw, hp⟩
  | disc a b =>
    simp only [runOp] at h
    have hb2 : b ∈ wires s := by
      unfold disconnectW at h
      dsimp only at h
      cases hjb : netIdx s.nets b with
      | none => rw [hjb] at h; exact Option.noConfusion h
      | some j =>
        obtain ⟨hl2, hm2⟩ := netIdx_some_mem _ _ _ hjb
        exact List.mem_join.2 ⟨_, getD_mem_nets _ _ hl2, hm2⟩
    have ha2 : a ∈ wires s := by
      unfold disconnectW at h
      dsimp only at h
      cases hjb : netIdx s.nets b with
      | none => rw [hjb] at h; exact Option.noConfusion h
      | some j =>
        rw [hjb] at h
        dsimp only at h
        cases hwc : wiresConnectedTo
            (⟨s.conn.filter (fun e => e ≠ (a, b)), s.nets, s.pts⟩ : MState) a with
        | none => rw [hwc] at h; exact Option.noConfusion h
        | some L =>
          unfold wiresConnectedTo at hwc
          cases hia : netIdx s.nets a with
          | none =>
            rw [show netIdx (⟨s.conn.filter (fun e => e ≠ (a, b)), s.nets,
              s.pts⟩ : MState).nets a = (none : Option Nat) from hia] at hwc
            exact Option.noConfusion hwc
          | some i =>
            obtain ⟨hl1, hm1⟩ := netIdx_some_mem s.nets a i hia
            exact List.mem_join.2 ⟨_, getD_mem_nets _ _ hl1, hm1⟩
    obtain ⟨s2x, heq, hInv2, hw, hp, -⟩ := disconnectW_spec s hInv a b ha2 hb2
    rw [heq] at h
    simp only [Option.some.injEq] at h
    subst h
    exact ⟨hInv2, hw, hp⟩

theorem runOps_netInv (ops : List MOp) (s0 s : MState) (hInv : NetInv s0)
    (h : runOps s0 ops = some s) :
    NetInv s ∧ (∀ x, x ∈ wires s ↔ x ∈ wires s0) ∧ s.pts = s0.pts := by
  induction ops generalizing s0 with
  | nil =>
    simp only [runOps, Option.some.injEq] at h
    subst h
    exact ⟨hInv, fun x => Iff.rfl, rfl⟩
  | cons op rest ih =>
    simp only [runOps] at h
    cases hop : runOp s0 op with
    | none => rw [hop] at h; exact Option.noConfusion h
    | some s1 =>
      rw [hop] at h
      obtain ⟨h1, h2, h3⟩ := runOp_netInv s0 s1 hInv op hop
      obtain ⟨g1, g2, g3⟩ := ih s1 h1 h
      exact ⟨g1, fun x => (g2 x).trans (h2 x), g3.trans h3⟩

theorem join_map_singleton (l : List Nat) : (l.map (fun i => [i])).join = l := by
  induction l with
  | nil => simp
  | cons a t ih => simp [ih]

theorem initState_netInv (n : Nat) : NetInv (initState n) := by
  refine ⟨?_, ?_, ?_⟩
  · show ((List.range n).map (fun i => [i])).join.Nodup
    rw [join_map_singleton]
    exact List.nodup_range n
  · intro e he
    simp [initState] at he
  · intro nn hn x hx y hy
    simp only [initState, List.mem_map] at hn
    obtain ⟨i, -, rfl⟩ := hn
    simp only [List.mem_singleton] at hx hy
    subst hx
    subst hy
    exact .refl

/-- C1 (amended): after every sequence of `connect_wire` /
`disconnect_wire` calls that completes, no wire is in two nets, every
*nonempty* net's wire set is exactly one connected component of the
direct connection relation, and no two distinct nets contain wires of
the same component.  (The restriction to nonempty nets is forced: a
`disconnect_wire` call whose two arguments lie in different nets can
empty a net without unregistering it — see the counterexample.) -/
theorem net_partition_after_ops (n : Nat) (ops : List MOp) (s : MState)
    (h : runOps (initState n) ops = some s) :
    s.nets.join.Nodup ∧
    (∀ net2 ∈ s.nets, net2 ≠ [] → ∃ w ∈ net2, ∀ x, x ∈ net2 ↔ reachC s.conn w x) ∧
    (∀ n1 ∈ s.nets, ∀ n2 ∈ s.nets, ∀ x y : Nat, x ∈ n1 → y ∈ n2 →
      reachC s.conn x y → n1 = n2) := by
  obtain ⟨⟨hnd, hedges, hconnd⟩, -, -⟩ := runOps_netInv ops _ s (initState_netInv n) h
  refine ⟨hnd, ?_, ?_⟩
  · intro net2 hmem hne
    obtain ⟨w, hw⟩ := List.exists_mem_of_ne_nil net2 hne
    refine ⟨w, hw, ?_⟩
    intro x
    constructor
    · intro hx
      exact hconnd net2 hmem w hw x hx
    · intro hr
      exact reach_stays_in_net s hnd hedges net2 hmem w x hw hr
  · intro n1 h1 n2 h2 x y hx hy hr
    have hy1 : y ∈ n1 := reach_stays_in_net s hnd hedges n1 h1 x y hx hr
    exact net_unique s.nets hnd n1 n2 h1 h2 y hy1 hy

/-- C1 witness: the amended partition property evaluated on the state
reached by `connect_wire(1,2); disconnect_wire(0,1)` from three wires. -/
theorem net_partition_after_ops_check :
    emptyNetState.nets.join.Nodup ∧
    (∀ net2 ∈ emptyNetState.nets, net2 ≠ [] →
      ∃ w ∈ net2, ∀ x, x ∈ net2 ↔ reachC emptyNetState.conn w x) ∧
    (∀ n1 ∈ emptyNetState.nets, ∀ n2 ∈ emptyNetState.nets, ∀ x y : Nat, x ∈ n1 →
      y ∈ n2 → reachC emptyNetState.conn x y → n1 = n2) :=
  net_partition_after_ops 3 [MOp.conn 1 2, MOp.disc 0 1] emptyNetState (by decide)

/-- C1 counterexample: the sequence `connect_wire(1,2);
disconnect_wire(0,1)` on three wires completes and leaves a registered
*empty* net (the emptied former net of wires 1 and 2), whose wire set is
not a connected component of anything — so not every net's wire set
equals a connected component. -/
theorem net_component_claim_fails :
    runOps (initState 3) [MOp.conn 1 2, MOp.disc 0 1] = some emptyNetState ∧
    ¬ NetIsComponent emptyNetState := by
  constructor
  · decide
  · intro hclaim
    obtain ⟨w, hw⟩ := hclaim [] (by decide)
    exact List.not_mem_nil w ((hw w).2 Relation.ReflTransGen.refl)

/-- C7: in every state reached from `add_wire`s by a completed
`connect_wire` / `disconnect_wire` sequence, `wiresConnectedTo` returns
exactly the least fixed point of the direct connection relation from the
given wire — the set of wires reachable in either storage direction —
independent of how the wires are currently distributed over nets. -/
theorem wiresConnectedTo_lfp (n : Nat) (ops : List MOp) (s : MState) (a : Nat)
    (hrun : runOps (initState n) ops = some s) (ha : a ∈ wires s) :
    ∃ L, wiresConnectedTo s a = some L ∧ ∀ x, x ∈ L ↔ reachC s.conn a x := by
  obtain ⟨⟨hnd, hedges, -⟩, -, -⟩ := runOps_netInv ops _ s (initState_netInv n) hrun
  obtain ⟨i, L, -, hwct, -, -, -, hLiff⟩ := wiresConnectedTo_spec s hnd hedges a ha
  exact ⟨L, hwct, hLiff⟩

/-- C7 witness: the closure of wire 1 after `connect_wire(1,2)` on three
wires. -/
theorem wiresConnectedTo_lfp_check :
    ∃ L, wiresConnectedTo twoWireNetState 1 = some L ∧
      ∀ x, x ∈ L ↔ reachC twoWireNetState.conn 1 x :=
  wiresConnectedTo_lfp 3 [MOp.conn 1 2] twoWireNetState 1 (by decide) (by decide)

theorem scnJoined_netInv : NetInv scnJoined := by
  refine ⟨by decide, by decide, ?_⟩
  intro n hn x hx y hy
  have hn2 : n = [1, 2] := by simpa [scnJoined] using hn
  subst hn2
  have hstep : reachC scnJoined.conn 1 2 :=
    Relation.ReflTransGen.single (Or.inl (by decide))
  have hx2 : x = 1 ∨ x = 2 := by simpa using hx
  have hy2 : y = 1 ∨ y = 2 := by simpa using hy
  rcases hx2 with rfl | rfl <;> rcases hy2 with rfl | rfl
  · exact .refl
  · exact hstep
  · exact reachC_symm _ hstep
  · exact .refl

/-- C3 (amended): for managed wires `a`, `b`, `disconnect_wire(a, b)`
removes the a→b entry from a's connection list, leaves every wire's
point list — and so every junction flag — untouched, keeps all wires
managed, and every wire not reachable from `a` afterwards is in a net
not containing `a`; in the two-wire scenario W2 therefore ends in its own
net but the junction flag on its formerly joined point stays set. -/
theorem disconnectWire_split_behavior (s : MState) (a b : Nat) (hInv : NetInv s)
    (ha : a ∈ wires s) (hb : b ∈ wires s) :
    ∃ s2, disconnectW s a b = some s2 ∧
      (a, b) ∉ s2.conn ∧
      s2.pts = s.pts ∧
      (∀ x, x ∈ wires s2 ↔ x ∈ wires s) ∧
      (∀ x, x ∈ wires s → ¬ reachC s2.conn a x →
        ¬ ∃ m ∈ s2.nets, a ∈ m ∧ x ∈ m) := by
  obtain ⟨s2, heq, hInv2, hw, hp, hc⟩ := disconnectW_spec s hInv a b ha hb
  refine ⟨s2, heq, ?_, hp, hw, ?_⟩
  · rw [hc]
    intro hmem
    have := (List.mem_filter.1 hmem).2
    simp at this
  · intro x hx hnr hex
    obtain ⟨m, hm, ham, hxm⟩ := hex
    exact hnr (hInv2.connected m hm a ham x hxm)

/-- C3 witness: the amended behaviour evaluated on the joined two-wire
scenario state. -/
theorem disconnectWire_split_behavior_check :
    ∃ s2, disconnectW scnJoined 1 2 = some s2 ∧
      (1, 2) ∉ s2.conn ∧
      s2.pts = scnJoined.pts ∧
      (∀ x, x ∈ wires s2 ↔ x ∈ wires scnJoined) ∧
      (∀ x, x ∈ wires scnJoined → ¬ reachC s2.conn 1 x →
        ¬ ∃ m ∈ s2.nets, 1 ∈ m ∧ x ∈ m) :=
  disconnectWire_split_behavior scnJoined 1 2 scnJoined_netInv (by decide) (by decide)

/-- C3 counterexample: in the two-wire scenario, `disconnect_wire(W1,
W2)` does put W2 into its own net, but the junction flag on W2's
formerly joined point (50,0) at index 0 is NOT cleared —
`disconnectWire` never modifies junction flags, refuting the claim's
flag-clearing clause. -/
theorem disconnect_keeps_junction_flag :
    disconnectW scnJoined 1 2 = some ⟨[], [[1], [2]], scnJoined.pts⟩ ∧
    flagAt ⟨[], [[1], [2]], scnJoined.pts⟩ 2 0 = true := by decide

/-!
Stability lemmas for `generateJunctions`: junction-flag updates and net
surgery never change coordinates, and all geometric tests depend only on
coordinates.
-/

theorem lineSegments_congr (pts1 pts2 : List WirePoint)
    (h : pts1.map (fun p => (p.x, p.y)) = pts2.map (fun p => (p.x, p.y))) :
    lineSegments pts1 = lineSegments pts2 := by
  induction pts1 generalizing pts2 with
  | nil =>
    cases pts2 with
    | nil => rfl
    | cons b t2 => simp at h
  | cons a t1 ih =>
    cases pts2 with
    | nil => simp at h
    | cons b t2 =>
      simp only [List.map_cons, List.cons.injEq] at h
      obtain ⟨hab, ht⟩ := h
      cases t1 with
      | nil =>
        cases t2 with
        | nil => rfl
        | cons b2 t2' => simp at ht
      | cons a2 t1' =>
        cases t2 with
        | nil => simp at ht
        | cons b2 t2' =>
          have htail : lineSegments (a2 :: t1') = lineSegments (b2 :: t2') := ih _ ht
          simp only [List.map_cons, List.cons.injEq] at ht
          obtain ⟨hab2, -⟩ := ht
          unfold lineSegments at htail ⊢
          simp only [List.tail_cons, List.zip_cons_cons, List.map_cons] at htail ⊢
          rw [Prod.mk.injEq] at hab hab2
          rw [hab.1, hab.2, hab2.1, hab2.2, htail]

theorem pointIsOnWire_congr (pts1 pts2 : List WirePoint)
    (h : pts1.map (fun p => (p.x, p.y)) = pts2.map (fun p => (p.x, p.y))) (px py : ℤ) :
    pointIsOnWire pts1 px py = pointIsOnWire pts2 px py := by
  unfold pointIsOnWire
  rw [lineSegments_congr pts1 pts2 h]

theorem coords_getD_congr (l1 l2 : List WirePoint)
    (h : l1.map (fun p => (p.x, p.y)) = l2.map (fun p => (p.x, p.y))) (k : Nat) :
    (l1.getD k default).x = (l2.getD k default).x ∧
      (l1.getD k default).y = (l2.getD k default).y := by
  induction l1 generalizing l2 k with
  | nil =>
    cases l2 with
    | nil => exact ⟨rfl, rfl⟩
    | cons b t2 => simp at h
  | cons a t1 ih =>
    cases l2 with
    | nil => simp at h
    | cons b t2 =>
      simp only [List.map_cons, List.cons.injEq] at h
      obtain ⟨hab, ht⟩ := h
      rw [Prod.mk.injEq] at hab
      cases k with
      | zero => exact ⟨hab.1, hab.2⟩
      | succ k' => simpa using ih t2 ht k'

theorem coords_length_congr (l1 l2 : List WirePoint)
    (h : l1.map (fun p => (p.x, p.y)) = l2.map (fun p => (p.x, p.y))) :
    l1.length = l2.length := by
  have := congrArg List.length h
  simpa using this

theorem firstOn_congr (s t : MState) (h : ∀ w, coordsOf t w = coordsOf s w) (A B : Nat) :
    firstOn t A B = firstOn s A B := by
  unfold firstOn ptAt
  obtain ⟨hx, hy⟩ := coords_getD_congr (pointsOf t B) (pointsOf s B) (h B) 0
  rw [hx, hy]
  exact pointIsOnWire_congr _ _ (h A) _ _

theorem lastOn_congr (s t : MState) (h : ∀ w, coordsOf t w = coordsOf s w) (A B : Nat) :
    lastOn t A B = lastOn s A B := by
  unfold lastOn ptAt
  have hlen : (pointsOf t B).length = (pointsOf s B).length :=
    coords_length_congr _ _ (h B)
  obtain ⟨hx, hy⟩ := coords_getD_congr (pointsOf t B) (pointsOf s B) (h B)
    ((pointsOf s B).length - 1)
  rw [hlen, hx, hy]
  exact pointIsOnWire_congr _ _ (h A) _ _

theorem lookup_cons_self {α : Type} (k : Nat) (v : α) (t : List (Nat × α)) :
    List.lookup k ((k, v) :: t) = some v := by
  simp [List.lookup]

theorem lookup_cons_ne {α : Type} (k w2 : Nat) (v : α) (t : List (Nat × α)) (h : w2 ≠ k) :
    List.lookup w2 ((k, v) :: t) = List.lookup w2 t := by
  have hb : (w2 == k) = false := by simp [h]
  simp [List.lookup, hb]

theorem lookup_map_key (pts : List (Nat × List WirePoint)) (w w2 : Nat)
    (f : List WirePoint → List WirePoint) :
    (pts.map (fun e => if e.1 = w then (e.1, f e.2) else e)).lookup w2 =
      if w2 = w then (pts.lookup w2).map f else pts.lookup w2 := by
  induction pts with
  | nil => simp [List.lookup]
  | cons e t ih =>
    obtain ⟨k, v⟩ := e
    simp only [List.map_cons]
    by_cases hkw : k = w
    · subst hkw
      rw [if_pos rfl]
      by_cases h2 : w2 = k
      · subst h2
        rw [lookup_cons_self, lookup_cons_self, if_pos rfl]
        rfl
      · rw [lookup_cons_ne _ _ _ _ h2, lookup_cons_ne _ _ _ _ h2, ih]
    · rw [if_neg hkw]
      by_cases h2 : w2 = k
      · subst h2
        have hw : w2 ≠ w := hkw
        rw [lookup_cons_self, lookup_cons_self, if_neg hw]
      · rw [lookup_cons_ne _ _ _ _ h2, lookup_cons_ne _ _ _ _ h2, ih]

theorem pointsOf_setPts (s : MState) (w w2 : Nat) (f : List WirePoint → List WirePoint)
    (hf : f [] = []) :
    pointsOf (setPts s w f) w2 = if w2 = w then f (pointsOf s w2) else pointsOf s w2 := by
  unfold pointsOf setPts
  simp only
  rw [lookup_map_key]
  by_cases h : w2 = w
  · rw [if_pos h, if_pos h]
    cases hl : s.pts.lookup w2 with
    | none => simp [hf]
    | some v => simp
  · rw [if_neg h, if_neg h]

theorem pointsOf_setFlagW (s : MState) (w i : Nat) (b : Bool) (w2 : Nat) :
    pointsOf (setFlagW s w i b) w2 =
      if w2 = w then setFlagPts (pointsOf s w2) i b else pointsOf s w2 := by
  unfold setFlagW
  exact pointsOf_setPts s w w2 _ (by simp [setFlagPts])

theorem setFlagPts_coords (l : List WirePoint) (i : Nat) (b : Bool) :
    (setFlagPts l i b).map (fun p => (p.x, p.y)) = l.map (fun p => (p.x, p.y)) := by
  induction l generalizing i with
  | nil => rfl
  | cons a t ih =>
    cases i with
    | zero => simp [setFlagPts, setJ]
    | succ i' =>
      have : setFlagPts (a :: t) (i' + 1) b = a :: setFlagPts t i' b := by
        simp [setFlagPts]
      rw [this, List.map_cons, List.map_cons, ih]

theorem coordsOf_setFlagW (s : MState) (w i : Nat) (b : Bool) (w2 : Nat) :
    coordsOf (setFlagW s w i b) w2 = coordsOf s w2 := by
  unfold coordsOf
  rw [pointsOf_setFlagW]
  by_cases h : w2 = w
  · rw [if_pos h]
    exact setFlagPts_coords _ _ _
  · rw [if_neg h]

theorem netInv_setFlagW (s : MState) (w i : Nat) (b : Bool) (h : NetInv s) :
    NetInv (setFlagW s w i b) :=
  ⟨h.nodup, h.edges, h.connected⟩

theorem getD_setFlagPts_self (l : List WirePoint) (i : Nat) (b : Bool)
    (hi : i < l.length) :
    (setFlagPts l i b).getD i default = setJ (l.getD i default) b := by
  induction l generalizing i with
  | nil => simp at hi
  | cons a t ih =>
    cases i with
    | zero => simp [setFlagPts]
    | succ i' =>
      have hstep : setFlagPts (a :: t) (i' + 1) b = a :: setFlagPts t i' b := by
        simp [setFlagPts]
      rw [hstep]
      simp only [List.getD_cons_succ]
      exact ih i' (by simpa using hi)

theorem getD_setFlagPts_ne (l : List WirePoint) (i j : Nat) (b : Bool) (h : j ≠ i) :
    (setFlagPts l i b).getD j default = l.getD j default := by
  induction l generalizing i j with
  | nil => simp [setFlagPts]
  | cons a t ih =>
    cases i with
    | zero =>
      cases j with
      | zero => omega
      | succ j' => simp [setFlagPts]
    | succ i' =>
      have hstep : setFlagPts (a :: t) (i' + 1) b = a :: setFlagPts t i' b := by
        simp [setFlagPts]
      rw [hstep]
      cases j with
      | zero => rfl
      | succ j' =>
        simp only [List.getD_cons_succ]
        exact ih i' j' (by omega)

theorem flagAt_setFlagW_self (s : MState) (w i : Nat) (b : Bool)
    (hi : i < (pointsOf s w).length) :
    flagAt (setFlagW s w i b) w i = b := by
  unfold flagAt
  rw [pointsOf_setFlagW, if_pos rfl, getD_setFlagPts_self _ _ _ hi]
  rfl

theorem flagAt_setFlagW_other (s : MState) (w i : Nat) (b : Bool) (w2 i2 : Nat)
    (h : w2 ≠ w ∨ i2 ≠ i) :
    flagAt (setFlagW s w i b) w2 i2 = flagAt s w2 i2 := by
  unfold flagAt
  rw [pointsOf_setFlagW]
  by_cases hw : w2 = w
  · rw [if_pos hw]
    have hi2 : i2 ≠ i := by tauto
    rw [getD_setFlagPts_ne _ _ _ _ hi2]
  · rw [if_neg hw]

theorem pointsOf_of_pts_eq (s t : MState) (h : t.pts = s.pts) (w : Nat) :
    pointsOf t w = pointsOf s w := by
  unfold pointsOf
  rw [h]

theorem coordsOf_of_pts_eq (s t : MState) (h : t.pts = s.pts) (w : Nat) :
    coordsOf t w = coordsOf s w := by
  unfold coordsOf
  rw [pointsOf_of_pts_eq s t h]

theorem flagAt_of_pts_eq (s t : MState) (h : t.pts = s.pts) (w i : Nat) :
    flagAt t w i = flagAt s w i := by
  unfold flagAt
  rw [pointsOf_of_pts_eq s t h]

theorem head?_eq_getD (l : List WirePoint) (h : l ≠ []) :
    l.head? = some (l.getD 0 default) := by
  cases l with
  | nil => exact absurd rfl h
  | cons a t => rfl

theorem getLast?_eq_getD (l : List WirePoint) (h : l ≠ []) :
    l.getLast? = some (l.getD (l.length - 1) default) := by
  induction l with
  | nil => exact absurd rfl h
  | cons a t ih =>
    cases t with
    | nil => rfl
    | cons b t2 =>
      rw [List.getLast?_cons_cons, ih (by simp)]
      simp

theorem connectW_of_mem (s : MState) (a b : Nat) (h : (a, b) ∈ s.conn) :
    connectW s a b = some s := by
  unfold connectW
  rw [if_pos h]

theorem gjPair_spec (s : MState) (A B : Nat) (hInv : NetInv s)
    (hA : A ∈ wires s) (hB : B ∈ wires s) (hBlen : 2 ≤ (pointsOf s B).length) :
    ∃ t, gjPair s A B = some t ∧ NetInv t ∧
      (∀ x, x ∈ wires t ↔ x ∈ wires s) ∧
      (∀ w, coordsOf t w = coordsOf s w) ∧
      (∀ e, e ∈ t.conn ↔ e ∈ s.conn ∨
        (A ≠ B ∧ e = (A, B) ∧ (firstOn s A B = true ∨ lastOn s A B = true))) ∧
      (∀ w i, flagAt t w i = true ↔ flagAt s w i = true ∨
        (w = B ∧ A ≠ B ∧
          ((i = 0 ∧ firstOn s A B = true) ∨
           (i = (pointsOf s B).length - 1 ∧ lastOn s A B = true)))) := by
  have hBne : pointsOf s B ≠ [] := by
    intro h
    rw [h] at hBlen
    simp at hBlen
  by_cases hAB : A = B
  · refine ⟨s, ?_, hInv, fun x => Iff.rfl, fun w => rfl, ?_, ?_⟩
    · unfold gjPair
      rw [if_pos hAB]
    · intro e
      constructor
      · exact Or.inl
      · rintro (h | ⟨hne2, -, -⟩)
        · exact h
        · exact absurd hAB hne2
    · intro w i
      constructor
      · exact Or.inl
      · rintro (h | ⟨-, hne2, -⟩)
        · exact h
        · exact absurd hAB hne2
  · have hhead := head?_eq_getD (pointsOf s B) hBne
    have hcond1 : pointIsOnWire (pointsOf s A) ((pointsOf s B).getD 0 default).x
        ((pointsOf s B).getD 0 default).y = firstOn s A B := rfl
    by_cases hfirst : firstOn s A B = true
    · -- first point of B is on A: connect and flag index 0
      obtain ⟨t0, hct0, hInv0, hw0, hpts0, hconn0, -⟩ := connectW_spec s hInv A B hA hB
      have hlent0 : (pointsOf t0 B).length = (pointsOf s B).length := by
        rw [pointsOf_of_pts_eq s t0 hpts0]
      have hcoord1 : ∀ w, coordsOf (setFlagW t0 B 0 true) w = coordsOf s w := by
        intro w
        rw [coordsOf_setFlagW]
        exact coordsOf_of_pts_eq s t0 hpts0 w
      have hlen1 : (pointsOf (setFlagW t0 B 0 true) B).length = (pointsOf s B).length := by
        have h := congrArg List.length (hcoord1 B)
        unfold coordsOf at h
        simpa using h
      have h1ne : pointsOf (setFlagW t0 B 0 true) B ≠ [] := by
        intro h
        rw [h] at hlen1
        rw [← hlen1] at hBlen
        simp at hBlen
      have hlast1 := getLast?_eq_getD (pointsOf (setFlagW t0 B 0 true) B) h1ne
      have hcondlast : pointIsOnWire (pointsOf (setFlagW t0 B 0 true) A)
          ((pointsOf (setFlagW t0 B 0 true) B).getD
            ((pointsOf (setFlagW t0 B 0 true) B).length - 1) default).x
          ((pointsOf (setFlagW t0 B 0 true) B).getD
            ((pointsOf (setFlagW t0 B 0 true) B).length - 1) default).y
          = lastOn s A B :=
        lastOn_congr s (setFlagW t0 B 0 true) hcoord1 A B
      have hflag1self : flagAt (setFlagW t0 B 0 true) B 0 = true :=
        flagAt_setFlagW_self t0 B 0 true (by rw [hlent0]; omega)
      have hflag1other : ∀ w i, (w ≠ B ∨ i ≠ 0) →
          flagAt (setFlagW t0 B 0 true) w i = flagAt s w i := by
        intro w i h
        rw [flagAt_setFlagW_other t0 B 0 true w i h]
        exact flagAt_of_pts_eq s t0 hpts0 w i
      by_cases hlast : lastOn s A B = true
      · -- last point also on A: connect again (no-op) and flag the last index
        have hABt0 : (A, B) ∈ t0.conn := (hconn0 (A, B)).2 (Or.inr rfl)
        have hABs1 : (A, B) ∈ (setFlagW t0 B 0 true).conn := hABt0
        have hcs1 : connectW (setFlagW t0 B 0 true) A B = some (setFlagW t0 B 0 true) :=
          connectW_of_mem _ A B hABs1
        refine ⟨setFlagW (setFlagW t0 B 0 true) B
          ((pointsOf (setFlagW t0 B 0 true) B).length - 1) true, ?_, ?_, ?_, ?_, ?_, ?_⟩
        · unfold gjPair
          rw [if_neg hAB, hhead]
          dsimp only
          rw [hcond1, hfirst]
          rw [if_pos rfl, hct0]
          dsimp only
          rw [hlast1]
          dsimp only
          rw [hcondlast, hlast, if_pos rfl, hcs1]
        · exact netInv_setFlagW _ _ _ _ (netInv_setFlagW _ _ _ _ hInv0)
        · exact fun x => hw0 x
        · intro w
          rw [coordsOf_setFlagW]
          exact hcoord1 w
        · intro e
          constructor
          · intro he
            rcases (hconn0 e).1 he with h | h
            · exact Or.inl h
            · exact Or.inr ⟨hAB, h, Or.inl hfirst⟩
          · rintro (h | ⟨-, he, -⟩)
            · exact (hconn0 e).2 (Or.inl h)
            · exact (hconn0 e).2 (Or.inr he)
        · intro w i
          have hfinalself : flagAt (setFlagW (setFlagW t0 B 0 true) B
              ((pointsOf (setFlagW t0 B 0 true) B).length - 1) true) B
              ((pointsOf (setFlagW t0 B 0 true) B).length - 1) = true :=
            flagAt_setFlagW_self _ B _ true (by rw [hlen1]; omega)
          have hfinalother : ∀ w2 i2,
              (w2 ≠ B ∨ i2 ≠ (pointsOf (setFlagW t0 B 0 true) B).length - 1) →
              flagAt (setFlagW (setFlagW t0 B 0 true) B
                ((pointsOf (setFlagW t0 B 0 true) B).length - 1) true) w2 i2 =
              flagAt (setFlagW t0 B 0 true) w2 i2 := by
            intro w2 i2 h
            exact flagAt_setFlagW_other _ B _ true w2 i2 h
          by_cases hwB : w = B
          · rw [hwB]
            by_cases hiL : i = (pointsOf s B).length - 1
            · rw [hiL]
              constructor
              · intro _
                exact Or.inr ⟨rfl, hAB, Or.inr ⟨rfl, hlast⟩⟩
              · intro _
                rw [← hlen1]
                exact hfinalself
            · by_cases hi0 : i = 0
              · rw [hi0]
                rw [hfinalother B 0 (Or.inr (by rw [hlen1]; omega)), hflag1self]
                constructor
                · intro _
                  exact Or.inr ⟨rfl, hAB, Or.inl ⟨rfl, hfirst⟩⟩
                · intro _
                  rfl
              · rw [hfinalother B i (Or.inr (by rw [hlen1]; omega)),
                  hflag1other B i (Or.inr hi0)]
                constructor
                · exact Or.inl
                · rintro (h | ⟨-, -, (⟨hi, -⟩ | ⟨hi, -⟩)⟩)
                  · exact h
                  · exact absurd hi hi0
                  · exact absurd hi hiL
          · rw [hfinalother w i (Or.inl hwB), hflag1other w i (Or.inl hwB)]
            constructor
            · exact Or.inl
            · rintro (h | ⟨hw, -, -⟩)
              · exact h
              · exact absurd hw hwB
      · -- only the first point is on A
        refine ⟨setFlagW t0 B 0 true, ?_, ?_, ?_, ?_, ?_, ?_⟩
        · unfold gjPair
          rw [if_neg hAB, hhead]
          dsimp only
          rw [hcond1, hfirst]
          rw [if_pos rfl, hct0]
          dsimp only
          rw [hlast1]
          dsimp only
          rw [hcondlast, if_neg hlast]
        · exact netInv_setFlagW _ _ _ _ hInv0
        · exact fun x => hw0 x
        · exact hcoord1
        · intro e
          constructor
          · intro he
            rcases (hconn0 e).1 he with h | h
            · exact Or.inl h
            · exact Or.inr ⟨hAB, h, Or.inl hfirst⟩
          · rintro (h | ⟨-, he, -⟩)
            · exact (hconn0 e).2 (Or.inl h)
            · exact (hconn0 e).2 (Or.inr he)
        · intro w i
          by_cases hwB : w = B
          · rw [hwB]
            by_cases hi0 : i = 0
            · rw [hi0, hflag1self]
              constructor
              · intro _
                exact Or.inr ⟨rfl, hAB, Or.inl ⟨rfl, hfirst⟩⟩
              · intro _
                rfl
            · rw [hflag1other B i (Or.inr hi0)]
              constructor
              · exact Or.inl
              · rintro (h | ⟨-, -, (⟨hi, -⟩ | ⟨-, hl⟩)⟩)
                · exact h
                · exact absurd hi hi0
                · exact absurd hl hlast
          · rw [hflag1other w i (Or.inl hwB)]
            constructor
            · exact Or.inl
            · rintro (h | ⟨hw, -, -⟩)
              · exact h
              · exact absurd hw hwB
    · -- B's first point is not on A
      have hlastS := getLast?_eq_getD (pointsOf s B) hBne
      have hcondlastS : pointIsOnWire (pointsOf s A)
          ((pointsOf s B).getD ((pointsOf s B).length - 1) default).x
          ((pointsOf s B).getD ((pointsOf s B).length - 1) default).y
          = lastOn s A B := rfl
      by_cases hlast : lastOn s A B = true
      · -- only the last point is on A
        obtain ⟨t0, hct0, hInv0, hw0, hpts0, hconn0, -⟩ := connectW_spec s hInv A B hA hB
        have hlent0 : (pointsOf t0 B).length = (pointsOf s B).length := by
          rw [pointsOf_of_pts_eq s t0 hpts0]
        refine ⟨setFlagW t0 B ((pointsOf t0 B).length - 1) true, ?_, ?_, ?_, ?_, ?_, ?_⟩
        · unfold gjPair
          rw [if_neg hAB, hhead]
          dsimp only
          rw [hcond1, if_neg hfirst]
          dsimp only
          rw [hlastS]
          dsimp only
          rw [hcondlastS, hlast, if_pos rfl, hct0]
        · exact netInv_setFlagW _ _ _ _ hInv0
        · exact fun x => hw0 x
        · intro w
          rw [coordsOf_setFlagW]
          exact coordsOf_of_pts_eq s t0 hpts0 w
        · intro e
          constructor
          · intro he
            rcases (hconn0 e).1 he with h | h
            · exact Or.inl h
            · exact Or.inr ⟨hAB, h, Or.inr hlast⟩
          · rintro (h | ⟨-, he, -⟩)
            · exact (hconn0 e).2 (Or.inl h)
            · exact (hconn0 e).2 (Or.inr he)
        · intro w i
          have hfinalself : flagAt (setFlagW t0 B ((pointsOf t0 B).length - 1) true) B
              ((pointsOf t0 B).length - 1) = true :=
            flagAt_setFlagW_self t0 B _ true (by rw [hlent0]; omega)
          have hfinalother : ∀ w2 i2, (w2 ≠ B ∨ i2 ≠ (pointsOf t0 B).length - 1) →
              flagAt (setFlagW t0 B ((pointsOf t0 B).length - 1) true) w2 i2 =
              flagAt s w2 i2 := by
            intro w2 i2 h
            rw [flagAt_setFlagW_other t0 B _ true w2 i2 h]
            exact flagAt_of_pts_eq s t0 hpts0 w2 i2
          by_cases hwB : w = B
          · rw [hwB]
            by_cases hiL : i = (pointsOf s B).length - 1
            · rw [hiL]
              constructor
              · intro _
                exact Or.inr ⟨rfl, hAB, Or.inr ⟨rfl, hlast⟩⟩
              · intro _
                rw [← hlent0]
                exact hfinalself
            · rw [hfinalother B i (Or.inr (by rw [hlent0]; omega))]
              constructor
              · exact Or.inl
              · rintro (h | ⟨-, -, (⟨-, hf⟩ | ⟨hi, -⟩)⟩)
                · exact h
                · exact absurd hf hfirst
                · exact absurd hi hiL
          · rw [hfinalother w i (Or.inl hwB)]
            constructor
            · exact Or.inl
            · rintro (h | ⟨hw, -, -⟩)
              · exact h
              · exact absurd hw hwB
      · -- neither endpoint of B is on A: no change
        refine ⟨s, ?_, hInv, fun x => Iff.rfl, fun w => rfl, ?_, ?_⟩
        · unfold gjPair
          rw [if_neg hAB, hhead]
          dsimp only
          rw [hcond1, if_neg hfirst]
          dsimp only
          rw [hlastS]
          dsimp only
          rw [hcondlastS, if_neg hlast]
        · intro e
          constructor
          · exact Or.inl
          · rintro (h | ⟨-, -, (hf | hl)⟩)
            · exact h
            · exact absurd hf hfirst
            · exact absurd hl hlast
        · intro w i
          constructor
          · exact Or.inl
          · rintro (h | ⟨-, -, (⟨-, hf⟩ | ⟨-, hl⟩)⟩)
            · exact h
            · exact absurd hf hfirst
            · exact absurd hl hlast

theorem gjInner_spec (A : Nat) (Bs : List Nat) (s : MState) (hInv : NetInv s)
    (hA : A ∈ wires s) (hBs : ∀ B ∈ Bs, B ∈ wires s)
    (hlen : ∀ w ∈ wires s, 2 ≤ (pointsOf s w).length) :
    ∃ t, gjInner A s Bs = some t ∧ NetInv t ∧
      (∀ x, x ∈ wires t ↔ x ∈ wires s) ∧
      (∀ w, coordsOf t w = coordsOf s w) ∧
      (∀ e, e ∈ t.conn ↔ e ∈ s.conn ∨
        (∃ B ∈ Bs, A ≠ B ∧ e = (A, B) ∧
          (firstOn s A B = true ∨ lastOn s A B = true))) ∧
      (∀ w i, flagAt t w i = true ↔ flagAt s w i = true ∨
        (w ∈ Bs ∧ A ≠ w ∧
          ((i = 0 ∧ firstOn s A w = true) ∨
           (i = (pointsOf s w).length - 1 ∧ lastOn s A w = true)))) := by
  induction Bs generalizing s with
  | nil =>
    refine ⟨s, rfl, hInv, fun x => Iff.rfl, fun w => rfl, ?_, ?_⟩
    · intro e
      simp
    · intro w i
      simp
  | cons B rest ih =>
    obtain ⟨s2, hp, hInv2, hw2, hc2, hconn2, hflag2⟩ :=
      gjPair_spec s A B hInv hA (hBs B (by simp)) (hlen B (hBs B (by simp)))
    have hA2 : A ∈ wires s2 := (hw2 A).2 hA
    have hBs2 : ∀ b ∈ rest, b ∈ wires s2 := fun b hb => (hw2 b).2 (hBs b (by simp [hb]))
    have hlen2 : ∀ w ∈ wires s2, 2 ≤ (pointsOf s2 w).length := by
      intro w hw
      have h1 : (pointsOf s2 w).length = (pointsOf s w).length := by
        have h := congrArg List.length (hc2 w)
        unfold coordsOf at h
        simpa using h
      rw [h1]
      exact hlen w ((hw2 w).1 hw)
    obtain ⟨t, hrest, hInvT, hwT, hcT, hconnT, hflagT⟩ := ih s2 hInv2 hA2 hBs2 hlen2
    refine ⟨t, ?_, hInvT, ?_, ?_, ?_, ?_⟩
    · simp only [gjInner]
      rw [hp]
      exact hrest
    · exact fun x => (hwT x).trans (hw2 x)
    · exact fun w => (hcT w).trans (hc2 w)
    · intro e
      rw [hconnT e]
      constructor
      · rintro (h | ⟨B', hB', hne, he, hcond⟩)
        · rcases (hconn2 e).1 h with h2 | ⟨hne2, he2, hcond2⟩
          · exact Or.inl h2
          · exact Or.inr ⟨B, by simp, hne2, he2, hcond2⟩
        · refine Or.inr ⟨B', by simp [hB'], hne, he, ?_⟩
          rcases hcond with h1 | h1
          · rw [firstOn_congr s s2 hc2 A B'] at h1
            exact Or.inl h1
          · rw [lastOn_congr s s2 hc2 A B'] at h1
            exact Or.inr h1
      · rintro (h | ⟨B', hB', hne, he, hcond⟩)
        · exact Or.inl ((hconn2 e).2 (Or.inl h))
        · rcases List.mem_cons.1 hB' with hB'B | hB'rest
          · subst hB'B
            exact Or.inl ((hconn2 e).2 (Or.inr ⟨hne, he, hcond⟩))
          · refine Or.inr ⟨B', hB'rest, hne, he, ?_⟩
            rcases hcond with h1 | h1
            · rw [← firstOn_congr s s2 hc2 A B'] at h1
              exact Or.inl h1
            · rw [← lastOn_congr s s2 hc2 A B'] at h1
              exact Or.inr h1
    · intro w i
      have hlw : (pointsOf s2 w).length = (pointsOf s w).length := by
        have h := congrArg List.length (hc2 w)
        unfold coordsOf at h
        simpa using h
      rw [hflagT w i, hflag2 w i]
      constructor
      · rintro ((h | hB) | ⟨hmem, hne, hc⟩)
        · exact Or.inl h
        · obtain ⟨hwB, hne, hc⟩ := hB
          refine Or.inr ⟨?_, ?_, ?_⟩
          · rw [hwB]
            exact List.mem_cons_self B rest
          · rw [hwB]
            exact hne
          · rw [hwB]
            exact hc
        · rcases hc with ⟨hi, hf⟩ | ⟨hi, hl⟩
          · rw [firstOn_congr s s2 hc2 A w] at hf
            exact Or.inr ⟨List.mem_cons_of_mem B hmem, hne, Or.inl ⟨hi, hf⟩⟩
          · rw [lastOn_congr s s2 hc2 A w] at hl
            rw [hlw] at hi
            exact Or.inr ⟨List.mem_cons_of_mem B hmem, hne, Or.inr ⟨hi, hl⟩⟩
      · rintro (h | ⟨hmem, hne, hc⟩)
        · exact Or.inl (Or.inl h)
        · rcases List.mem_cons.1 hmem with hwB | hrest2
          · rw [hwB] at hne hc
            exact Or.inl (Or.inr ⟨hwB, hne, hc⟩)
          · rcases hc with ⟨hi, hf⟩ | ⟨hi, hl⟩
            · rw [← firstOn_congr s s2 hc2 A w] at hf
              exact Or.inr ⟨hrest2, hne, Or.inl ⟨hi, hf⟩⟩
            · rw [← lastOn_congr s s2 hc2 A w] at hl
              rw [← hlw] at hi
              exact Or.inr ⟨hrest2, hne, Or.inr ⟨hi, hl⟩⟩

theorem gjOuter_spec (As : List Nat) (s : MState) (hInv : NetInv s)
    (hAs : ∀ a ∈ As, a ∈ wires s)
    (hlen : ∀ w ∈ wires s, 2 ≤ (pointsOf s w).length) :
    ∃ t, gjOuter s As = some t ∧ NetInv t ∧
      (∀ x, x ∈ wires t ↔ x ∈ wires s) ∧
      (∀ w, coordsOf t w = coordsOf s w) ∧
      (∀ e, e ∈ t.conn ↔ e ∈ s.conn ∨
        (∃ a ∈ As, ∃ b, b ∈ wires s ∧ a ≠ b ∧ e = (a, b) ∧
          (firstOn s a b = true ∨ lastOn s a b = true))) ∧
      (∀ w i, flagAt t w i = true ↔ flagAt s w i = true ∨
        (w ∈ wires s ∧ ∃ a ∈ As, a ≠ w ∧
          ((i = 0 ∧ firstOn s a w = true) ∨
           (i = (pointsOf s w).length - 1 ∧ lastOn s a w = true)))) := by
  induction As generalizing s with
  | nil =>
    refine ⟨s, rfl, hInv, fun x => Iff.rfl, fun w => rfl, ?_, ?_⟩
    · intro e
      simp
    · intro w i
      simp
  | cons a As' ih =>
    obtain ⟨s2, hin, hInv2, hw2, hc2, hconn2, hflag2⟩ :=
      gjInner_spec a (wires s) s hInv (hAs a (by simp)) (fun B hB => hB) hlen
    have hAs2 : ∀ x ∈ As', x ∈ wires s2 := fun x hx => (hw2 x).2 (hAs x (by simp [hx]))
    have hlens2 : ∀ w, (pointsOf s2 w).length = (pointsOf s w).length := by
      intro w
      have h := congrArg List.length (hc2 w)
      unfold coordsOf at h
      simpa using h
    have hlen2 : ∀ w ∈ wires s2, 2 ≤ (pointsOf s2 w).length := by
      intro w hw
      rw [hlens2 w]
      exact hlen w ((hw2 w).1 hw)
    obtain ⟨t, hrest, hInvT, hwT, hcT, hconnT, hflagT⟩ := ih s2 hInv2 hAs2 hlen2
    refine ⟨t, ?_, hInvT, ?_, ?_, ?_, ?_⟩
    · simp only [gjOuter]
      rw [hin]
      exact hrest
    · exact fun x => (hwT x).trans (hw2 x)
    · exact fun w => (hcT w).trans (hc2 w)
    · intro e
      rw [hconnT e]
      constructor
      · rintro (h | ⟨a', ha', b, hb, hne, he, hcond⟩)
        · rcases (hconn2 e).1 h with h2 | ⟨B, hBmem, hne2, he2, hcond2⟩
          · exact Or.inl h2
          · exact Or.inr ⟨a, by simp, B, hBmem, hne2, he2, hcond2⟩
        · refine Or.inr ⟨a', by simp [ha'], b, (hw2 b).1 hb, hne, he, ?_⟩
          rcases hcond with h1 | h1
          · rw [firstOn_congr s s2 hc2 a' b] at h1
            exact Or.inl h1
          · rw [lastOn_congr s s2 hc2 a' b] at h1
            exact Or.inr h1
      · rintro (h | ⟨a', ha', b, hb, hne, he, hcond⟩)
        · exact Or.inl ((hconn2 e).2 (Or.inl h))
        · rcases List.mem_cons.1 ha' with ha'a | ha'rest
          · rw [ha'a] at hne he hcond
            exact Or.inl ((hconn2 e).2 (Or.inr ⟨b, hb, hne, he, hcond⟩))
          · refine Or.inr ⟨a', ha'rest, b, (hw2 b).2 hb, hne, he, ?_⟩
            rcases hcond with h1 | h1
            · rw [← firstOn_congr s s2 hc2 a' b] at h1
              exact Or.inl h1
            · rw [← lastOn_congr s s2 hc2 a' b] at h1
              exact Or.inr h1
    · intro w i
      rw [hflagT w i, hflag2 w i]
      constructor
      · rintro ((h | ⟨hwmem, hne, hc⟩) | ⟨hwmem2, a', ha', hne, hc⟩)
        · exact Or.inl h
        · exact Or.inr ⟨hwmem, a, by simp, hne, hc⟩
        · refine Or.inr ⟨(hw2 w).1 hwmem2, a', by simp [ha'], hne, ?_⟩
          rcases hc with ⟨hi, hf⟩ | ⟨hi, hl⟩
          · rw [firstOn_congr s s2 hc2 a' w] at hf
            exact Or.inl ⟨hi, hf⟩
          · rw [lastOn_congr s s2 hc2 a' w] at hl
            rw [hlens2 w] at hi
            exact Or.inr ⟨hi, hl⟩
      · rintro (h | ⟨hwmem, a', ha', hne, hc⟩)
        · exact Or.inl (Or.inl h)
        · rcases List.mem_cons.1 ha' with ha'a | ha'rest
          · rw [ha'a] at hne hc
            exact Or.inl (Or.inr ⟨hwmem, hne, hc⟩)
          · refine Or.inr ⟨(hw2 w).2 hwmem, a', ha'rest, hne, ?_⟩
            rcases hc with ⟨hi, hf⟩ | ⟨hi, hl⟩
            · rw [← firstOn_congr s s2 hc2 a' w] at hf
              exact Or.inl ⟨hi, hf⟩
            · rw [← lastOn_congr s s2 hc2 a' w] at hl
              rw [← hlens2 w] at hi
              exact Or.inr ⟨hi, hl⟩

theorem getD_isJunction_false (l : List WirePoint) (h : ∀ p ∈ l, p.isJunction = false)
    (i : Nat) : (l.getD i default).isJunction = false := by
  induction l generalizing i with
  | nil => cases i <;> rfl
  | cons a t ih =>
    cases i with
    | zero => exact h a (by simp)
    | succ i' =>
      simp only [List.getD_cons_succ]
      exact ih (fun p hp => h p (by simp [hp])) i'

theorem scnState_netInv : NetInv scnState := by
  refine ⟨by decide, by decide, ?_⟩
  intro n hn x hx y hy
  have hn2 : n = [1] ∨ n = [2] := by simpa [scnState] using hn
  rcases hn2 with rfl | rfl
  · have hx1 : x = 1 := by simpa using hx
    have hy1 : y = 1 := by simpa using hy
    rw [hx1, hy1]
    exact Relation.ReflTransGen.refl
  · have hx1 : x = 2 := by simpa using hx
    have hy1 : y = 2 := by simpa using hy
    rw [hx1, hy1]
    exact Relation.ReflTransGen.refl


theorem scnState_flags_false : ∀ w i, flagAt scnState w i = false := by
  intro w i
  unfold flagAt
  apply getD_isJunction_false
  intro p hp
  by_cases h1 : w = 1
  · subst h1
    have he : pointsOf scnState 1 = [⟨0, 0, false⟩, ⟨100, 0, false⟩] := rfl
    rw [he] at hp
    simp at hp
    rcases hp with rfl | rfl <;> rfl
  · by_cases h2 : w = 2
    · subst h2
      have he : pointsOf scnState 2 = [⟨50, 0, false⟩, ⟨50, 100, false⟩] := rfl
      rw [he] at hp
      simp at hp
      rcases hp with rfl | rfl <;> rfl
    · have he : pointsOf scnState w = [] := by
        unfold pointsOf scnState
        rw [lookup_cons_ne _ _ _ _ h1, lookup_cons_ne _ _ _ _ h2]
        rfl
      rw [he] at hp
      simp at hp

/-- C4: from a clean post-import state (no stored connections, no
junction flags, every managed wire with at least two points, net
invariant holding), `generate_junctions` succeeds and, for every ordered
pair of distinct managed wires `(A, B)`, it records the connection A→B
exactly when `B`'s first or last point lies on one of `A`'s segments;
`B`'s first point ends up flagged as a junction exactly when it lies on
some other managed wire, and likewise `B`'s last point; and the two
wires of every recorded connection end up in the same net. -/
theorem generateJunctions_characterization (s : MState) (hInv : NetInv s)
    (hc0 : s.conn = []) (hf0 : ∀ w i, flagAt s w i = false)
    (hlen : ∀ w ∈ wires s, 2 ≤ (pointsOf s w).length) :
    ∃ t, generateJunctions s = some t ∧
      (∀ A B, A ∈ wires s → B ∈ wires s → A ≠ B →
        ((A, B) ∈ t.conn ↔ (firstOn s A B = true ∨ lastOn s A B = true))) ∧
      (∀ B ∈ wires s,
        (flagAt t B 0 = true ↔ ∃ A ∈ wires s, A ≠ B ∧ firstOn s A B = true)) ∧
      (∀ B ∈ wires s,
        (flagAt t B ((pointsOf s B).length - 1) = true ↔
          ∃ A ∈ wires s, A ≠ B ∧ lastOn s A B = true)) ∧
      (∀ e ∈ t.conn, ∃ n ∈ t.nets, e.1 ∈ n ∧ e.2 ∈ n) := by
  obtain ⟨t, heq, hInvT, hwT, hcT, hconnT, hflagT⟩ :=
    gjOuter_spec (wires s) s hInv (fun a ha => ha) hlen
  refine ⟨t, heq, ?_, ?_, ?_, hInvT.edges⟩
  · intro A B hA hB hAB
    rw [hconnT (A, B), hc0]
    simp only [List.not_mem_nil, false_or]
    constructor
    · rintro ⟨a, ha, b, hb, hne, he, hcond⟩
      injection he with he1 he2
      subst he1
      subst he2
      exact hcond
    · intro hcond
      exact ⟨A, hA, B, hB, hAB, rfl, hcond⟩
  · intro B hB
    rw [hflagT B 0, hf0 B 0]
    simp only [Bool.false_eq_true, false_or]
    constructor
    · rintro ⟨hBmem, a, ha, hne, hc⟩
      rcases hc with ⟨-, hf⟩ | ⟨h0, -⟩
      · exact ⟨a, ha, hne, hf⟩
      · have h2 := hlen B hB
        omega
    · rintro ⟨a, ha, hne, hf⟩
      exact ⟨hB, a, ha, hne, Or.inl ⟨by trivial, hf⟩⟩
  · intro B hB
    rw [hflagT B ((pointsOf s B).length - 1), hf0 B ((pointsOf s B).length - 1)]
    simp only [Bool.false_eq_true, false_or]
    constructor
    · rintro ⟨hBmem, a, ha, hne, hc⟩
      rcases hc with ⟨h0, -⟩ | ⟨-, hl⟩
      · have h2 := hlen B hB
        omega
      · exact ⟨a, ha, hne, hl⟩
    · rintro ⟨a, ha, hne, hl⟩
      exact ⟨hB, a, ha, hne, Or.inr ⟨by trivial, hl⟩⟩

/-- C4 witness: the scenario W1 = [(0,0),(100,0)], W2 = [(50,0),(50,100)]
through the characterization: `generate_junctions` connects W1→W2, flags
W2's point at index 0 as a junction, and leaves both wires in one net. -/
theorem generateJunctions_characterization_check :
    ∃ t, generateJunctions scnState = some t ∧ (1, 2) ∈ t.conn ∧
      flagAt t 2 0 = true ∧ ∃ n ∈ t.nets, 1 ∈ n ∧ 2 ∈ n := by
  obtain ⟨t, heq, hconn, hflag0, hflagL, hnets⟩ :=
    generateJunctions_characterization scnState scnState_netInv rfl
      scnState_flags_false (by decide)
  have h12 : (1, 2) ∈ t.conn :=
    (hconn 1 2 (by decide) (by decide) (by decide)).2 (Or.inl (by decide))
  refine ⟨t, heq, h12, ?_, ?_⟩
  · exact (hflag0 2 (by decide)).2 ⟨1, by decide, by decide, by decide⟩
  · exact hnets (1, 2) h12
